import Mathlib

/-!
Verification of the reference filesystem implementation
(fsspec/implementations/reference.py): a shallow embedding of the
`LazyReferenceMapper` and `ReferenceFileSystem` classes, together with
theorems checking the stated properties of the lazy reference map, of the
bulk `cat` range dispatcher and of the single-range `cat_file` arithmetic.

Modelling conventions used throughout:
- Python byte strings are lists of byte values (`Bytes`); every string in
  scope is ASCII, so a `str` encodes to its codepoints.
- Python dictionaries are association lists with first-match lookup and
  in-place update (`dictLookup` / `dictSet`); insertion order is preserved
  as in CPython.
- Python exceptions are collapsed into `Except` errors; distinct exception
  classes are only distinguished where a claim depends on them.
- `None` is `Option.none`; a Python value union becomes a tagged inductive.
-/

namespace FsspecRef

/-- Decidable equality of `Except` results, used to evaluate the models on
concrete inputs. -/
instance {ε α : Type} [DecidableEq ε] [DecidableEq α] : DecidableEq (Except ε α) :=
  fun x y =>
  match x, y with
  | .ok a, .ok b =>
      match decEq a b with
      | isTrue h => isTrue (h ▸ rfl)
      | isFalse h => isFalse (fun hc => h (Except.ok.inj hc))
  | .error a, .error b =>
      match decEq a b with
      | isTrue h => isTrue (h ▸ rfl)
      | isFalse h => isFalse (fun hc => h (Except.error.inj hc))
  | .ok _, .error _ => isFalse (fun hc => Except.noConfusion hc)
  | .error _, .ok _ => isFalse (fun hc => Except.noConfusion hc)

/-- Python bytes, modelled as the list of byte values. -/
abbrev Bytes := List Nat

/-- Encoding of an ASCII Python str as bytes (str.encode). -/
def strBytes (s : String) : Bytes := s.data.map Char.toNat

/-- Python slice endpoint normalisation for a sequence of length n:
negative indices count from the end, and both directions clamp. -/
def pyIdx (n : Nat) (i : Int) : Nat :=
  if i < 0 then (i + n).toNat else min i.toNat n

/-- Python slicing b[s:e] with optional endpoints. -/
def pySlice (b : Bytes) (s e : Option Int) : Bytes :=
  let n := b.length
  let lo := match s with | none => 0 | some i => pyIdx n i
  let hi := match e with | none => n | some i => pyIdx n i
  (b.drop lo).take (hi - lo)

/-! ### Character-level string helpers

The embedding works on `String.data` with structurally recursive helpers so
that every definition evaluates by kernel reduction. -/

/-- Split a character list at every occurrence of c (Python str.split(c)). -/
def splitChar (c : Char) (l : List Char) : List (List Char) :=
  l.foldr (fun x acc => if x = c then [] :: acc else (x :: acc.headD []) :: acc.tail) [[]]

/-- Substring test (Python `sub in s`). -/
def hasInfixL (sub : List Char) : List Char → Bool
  | [] => sub.isEmpty
  | x :: xs => sub.isPrefixOf (x :: xs) || hasInfixL sub xs

/-- Parse a non-empty digit string (Python int(s) restricted to the decimal
numerals occurring in chunk ids). -/
def digits? (l : List Char) : Option Nat :=
  if l.isEmpty then none
  else if l.all Char.isDigit then some (l.foldl (fun a c => a * 10 + (c.toNat - 48)) 0)
  else none

/-- Key splitting `field, chunk = key.split("/")`: succeeds exactly when the
key holds one separator (otherwise Python raises ValueError on unpacking). -/
def splitOnce (key : String) : Option (String × String) :=
  match splitChar '/' key.data with
  | [a, b] => some (⟨a⟩, ⟨b⟩)
  | _ => none

/-! ### Base64 (Python base64.b64decode / b64encode on ASCII data) -/

/-- Value of one base64 alphabet character. -/
def b64DigitVal (c : Nat) : Nat :=
  if 65 ≤ c ∧ c ≤ 90 then c - 65
  else if 97 ≤ c ∧ c ≤ 122 then c - 97 + 26
  else if 48 ≤ c ∧ c ≤ 57 then c - 48 + 52
  else if c = 43 then 62
  else 63

/-- Base64 decoding of a list of sextet values. -/
def b64decodeCore : List Nat → Bytes
  | a :: b :: c :: d :: rest =>
      (a * 4 + b / 16) :: ((b % 16) * 16 + c / 4) :: ((c % 4) * 64 + d) :: b64decodeCore rest
  | [a, b] => [a * 4 + b / 16]
  | [a, b, c] => [a * 4 + b / 16, (b % 16) * 16 + c / 4]
  | _ => []

/-- Python base64.b64decode on a byte string (padding bytes 61 = "=" dropped). -/
def b64decodeBytes (b : Bytes) : Bytes :=
  b64decodeCore ((b.filter (fun c => c ≠ 61)).map b64DigitVal)

/-- Base64 alphabet character for a sextet value. -/
def b64Char (n : Nat) : Nat :=
  if n < 26 then 65 + n
  else if n < 52 then 97 + (n - 26)
  else if n < 62 then 48 + (n - 52)
  else if n = 62 then 43
  else 47

/-- Python base64.b64encode. -/
def b64encodeBytes : Bytes → Bytes
  | a :: b :: c :: rest =>
      b64Char (a / 4) :: b64Char ((a % 4) * 16 + b / 16) ::
      b64Char ((b % 16) * 4 + c / 64) :: b64Char (c % 64) :: b64encodeBytes rest
  | [a, b] => [b64Char (a / 4), b64Char ((a % 4) * 16 + b / 16), b64Char ((b % 16) * 4), 61]
  | [a] => [b64Char (a / 4), b64Char ((a % 4) * 16), 61, 61]
  | [] => []

/-! ### Association-list dictionaries -/

/-- First-match lookup in an association list (Python dict access). -/
def dictLookup {κ α : Type} [DecidableEq κ] : List (κ × α) → κ → Option α
  | [], _ => none
  | kv :: rest, k => if kv.1 = k then some kv.2 else dictLookup rest k

/-- Python dict assignment d[k] = v: replace the (first) entry in place when
the key exists, append otherwise (CPython preserves insertion order). -/
def dictSet {κ α : Type} [DecidableEq κ] : List (κ × α) → κ → α → List (κ × α)
  | [], k, v => [(k, v)]
  | kv :: rest, k, v => if kv.1 = k then (k, v) :: rest else kv :: dictSet rest k v

/-- Python dict deletion / pop of an existing key. -/
def dictErase {κ α : Type} [DecidableEq κ] (d : List (κ × α)) (k : κ) : List (κ × α) :=
  d.filter (fun kv => kv.1 ≠ k)

/-! ### Chunk grids and flat indices -/

/-- Chunk-grid dimensions, `np.ceil(np.array(shape) / np.array(chunks))`
cast to int, as computed by `_get_chunk_sizes` and `_output_size`. -/
def gridDims (shape chunks : List Nat) : List Nat :=
  List.zipWith (fun a b => (a + b - 1) / b) shape chunks

/-- Row-major flat index, `np.ravel_multi_index(idx, dims)`, as used by
`_key_to_record`. -/
def ravelMulti (idx dims : List Nat) : Nat :=
  (List.zip idx dims).foldl (fun acc p => acc * p.2 + p.1) 0

/-- The flat index recomputed inside `LazyReferenceMapper.write`: a fold over
the reversed chunk coordinates where the accumulated multiplier grows by
`sh // ch` — floor division of shape by chunks, not the ceil grid. -/
def writeFlat (idx shape chunks : List Nat) : Nat :=
  ((List.zip idx.reverse (List.zip shape.reverse chunks.reverse)).foldl
    (fun acc t => (acc.1 + t.1 * acc.2, acc.2 * (t.2.1 / t.2.2))) (0, 1)).1

/-- `LazyReferenceMapper._output_size`, specialised to the shape and chunks
arrays of the field (the zarray metadata it loads). -/
def output_size (record_size : Nat) (shape chunks : List Nat) (record : Nat) : Nat :=
  let cs0 := gridDims shape chunks
  let cs := if cs0.isEmpty then [0] else cs0
  let nchunks := cs.prod
  let nrec0 := nchunks / record_size
  let nrec := if nchunks % record_size ≠ 0 then nrec0 + 1 else nrec0
  if record < nrec - 1 then record_size else nchunks % record_size

/-- Modelled from the spec: expected rows per record for a field with flat
chunk count N — every record before the last holds record_size rows, and the
final record holds N mod record_size rows, or record_size when that remainder
is zero and N is positive. -/
def specExpectedRows (record_size N record : Nat) : Nat :=
  let nrec := (N + record_size - 1) / record_size
  if record + 1 < nrec then record_size
  else if N % record_size = 0 ∧ 0 < N then record_size
  else N % record_size

/-! ### LazyReferenceMapper state

`_items` is a Python dict whose keys are either strings (metadata keys and
".zmetadata") or tuples. Tuples of any scalar shape can be probed, so the
key type covers pairs of string-or-int scalars: `__setitem__` stores
partitions under (field : str, record : int), `_load_one_key` probes
(field : str, key : str), and `flush` probes (record : int, field : str). -/

/-- A Python scalar usable inside a tuple key. -/
inductive Scal where
  | i (n : Int)
  | s (st : String)
deriving DecidableEq, Repr

/-- A key of the `_items` dict: a string or a 2-tuple of scalars. -/
inductive ItemKey where
  | str (k : String)
  | tup (a b : Scal)
deriving DecidableEq, Repr

/-- Metadata values held in the `zmetadata` map: either a zarray object
(the only structure the mapper inspects, via its shape and chunks arrays) or
some other JSON value kept abstract. -/
inductive MetaVal where
  | zarr (shape chunks : List Nat)
  | other (s : String)
deriving DecidableEq, Repr

/-- A dynamically-typed Python value stored in a reference map:
raw bytes, the serialised JSON of a metadata value (`json.dumps(v).encode()`),
a string, a one-element or three-element reference list, `None`, or the
serialised `.zmetadata` file body. -/
inductive PyVal where
  | bytes (b : Bytes)
  | jsonBytes (v : MetaVal)
  | str (s : String)
  | arr1 (u : Option String)
  | arr3 (u : Option String) (o sz : Int)
  | tomb
  | zmetaFile (record_size : Nat) (metadata : List (String × MetaVal))
deriving DecidableEq, Repr

/-- A value of the `_items` dict: either a plain value (string keys) or a
dirty-partition dict mapping chunk ids to staged values (tuple keys). -/
inductive ItemVal where
  | v (x : PyVal)
  | dict (d : List (String × PyVal))
deriving DecidableEq, Repr

/-- Python truthiness of a stored value, as tested by `elif maybe:`. -/
def pyTruthy : PyVal → Bool
  | .bytes b => ¬ b.isEmpty
  | .jsonBytes _ => true
  | .str s => ¬ s.data.isEmpty
  | .arr1 _ => true
  | .arr3 _ _ _ => true
  | .tomb => false
  | .zmetaFile _ _ => true

/-- Python truthiness of an optional `_items` entry, as tested by
`if self._items.get((record, field)):` in flush. -/
def truthyItem : Option ItemVal → Bool
  | none => false
  | some (.v x) => pyTruthy x
  | some (.dict d) => ¬ d.isEmpty

/-- One row of a columnar refs.<record>.parq file. -/
structure Row where
  path : Option String
  offset : Int
  size : Int
  raw : Option Bytes
deriving DecidableEq, Repr

/-- The all-defaults row (path and raw null, offset and size zero). -/
def defaultRow : Row := ⟨none, 0, 0, none⟩

/-- The backing store of a lazy reference map root: the parquet files keyed
by (field, record) and the `.zmetadata` file (record_size plus metadata). -/
structure FStore where
  files : List ((String × Nat) × List Row)
  zfile : Nat × List (String × MetaVal)
deriving DecidableEq, Repr

/-- The in-memory state of a `LazyReferenceMapper`: record_size, the parsed
metadata map and the `_items` dict. The lru page cache is not modelled — row
loads read the backing store directly (only cache staleness, irrelevant to
the claims, is lost). -/
structure LRM where
  record_size : Nat
  zmetadata : List (String × MetaVal)
  items : List (ItemKey × ItemVal)
deriving DecidableEq, Repr

/-- `LazyReferenceMapper._is_meta`. -/
def is_meta (key : String) : Bool :=
  ".z".data.isPrefixOf key.data || hasInfixL "/.z".data key.data

/-- `_get_chunk_sizes`: the grid of a field, from its zarray metadata entry
(missing entry raises KeyError). The per-field memo cache is not modelled. -/
def get_chunk_sizes (m : LRM) (field : String) : Except Unit (List Nat) :=
  match dictLookup m.zmetadata (field ++ "/.zarray") with
  | some (.zarr sh ch) => .ok (gridDims sh ch)
  | _ => .error ()

/-- Parse a chunk id "x.y.z" into its coordinates. -/
def parseChunkId (chunk : String) : Option (List Nat) :=
  (splitChar '.' chunk.data).mapM digits?

/-- `LazyReferenceMapper._key_to_record`: (record, row-in-record, ndim) for a
chunk key, or an error for a malformed key or out-of-grid coordinates
(np.ravel_multi_index rejects those). -/
def key_to_record (m : LRM) (key : String) : Except Unit (Nat × Nat × Nat) := do
  let (field, chunk) ← match splitOnce key with
    | some p => .ok p
    | none => .error ()
  let cs ← get_chunk_sizes m field
  if cs.length = 0 then
    return (0, 0, 0)
  let idx ← match parseChunkId chunk with
    | some l => .ok l
    | none => .error ()
  if idx.length = cs.length ∧ (List.zip idx cs).all (fun p => p.1 < p.2) then
    let flat := ravelMulti idx cs
    return (flat / m.record_size, flat % m.record_size, cs.length)
  else
    .error ()

/-- The parquet fallback of `_load_one_key`: reload the record file through
the (uncached) store and decode the row at the key position, per the row
semantics of the columnar layout. -/
def loadFromStore (m : LRM) (fs : FStore) (field key : String) : Except Unit PyVal := do
  let (record, ri, ndim) ← key_to_record m key
  if ndim = 0 then
    return .bytes []
  let rows ← match dictLookup fs.files (field, record) with
    | some rows => .ok rows
    | none => .error ()
  let row ← match rows.get? ri with
    | some r => .ok r
    | none => .error ()
  match row.raw with
  | some r => return .bytes r
  | none =>
  match row.path with
  | none => .error ()
  | some p =>
      if row.offset = 0 ∧ row.size = 0 then return .arr1 (some p)
      else return .arr3 (some p) row.offset row.size

/-- `LazyReferenceMapper._load_one_key` (`__getitem__`): the dynamic value
returned for one key — bytes, or a one- or three-element reference list.
Every exception (KeyError, and the uncaught ValueError and IndexError paths)
collapses to `Except.error`. -/
def _load_one_key (m : LRM) (fs : FStore) (key : String) : Except Unit PyVal := do
  match dictLookup m.items (.str key) with
  | some (.v x) => return x
  | some (.dict _) => .error () -- string keys never hold partition dicts

  | none =>
  match dictLookup m.zmetadata key with
  | some mv => return .jsonBytes mv
  | none =>
  if ¬ key.data.contains '/' ∨ is_meta key then
    .error ()
  else do
  let (field, sub_key) ← match splitOnce key with
    | some p => .ok p
    | none => .error ()
  let _ ← key_to_record m key
  -- the staged-value probe: the dict holds partitions under (field, record),
  -- but the key probed here is the tuple (field, key) with the full key string
  let maybe : Option (Option PyVal) :=
    match dictLookup m.items (.tup (.s field) (.s key)) with
    | some (.dict d) => match dictLookup d sub_key with
      | some .tomb => some none
      | some v => some (some v)
      | none => none
    | _ => none
  match maybe with
  | some none => .error ()
  | some (some v) =>
      if pyTruthy v then return v else loadFromStore m fs field key
  | none => loadFromStore m fs field key

/-- `LazyReferenceMapper._output_size` as called on a mapper state: loads the
field zarray through `self[...]` and applies `output_size`. -/
def output_size_of (m : LRM) (fs : FStore) (field : String) (record : Nat) :
    Except Unit Nat := do
  let z ← _load_one_key m fs (field ++ "/.zarray")
  match z with
  | .jsonBytes (.zarr sh ch) => return output_size m.record_size sh ch record
  | _ => .error ()

/-- `kerchunk.df._proc_raw` — the inline encoder of the external columnar
writer library (not part of this repository). Modelled from the spec:
encode_inline passes ASCII bytes through and base64-wraps other bytes;
strings encode first; any other staged value is rejected. -/
def proc_raw : PyVal → Except Unit Bytes
  | .bytes b =>
      if b.all (fun c => c < 128) then .ok b
      else .ok (strBytes "base64:" ++ b64encodeBytes b)
  | .str s => .ok (strBytes s)
  | _ => .error ()

/-- Apply an update to the j-th row of a row list (numpy column assignment). -/
def rowPatch (rows : List Row) (j : Nat) (f : Row → Row) : List Row :=
  match rows.get? j with
  | some r => rows.set j (f r)
  | none => rows

/-- `LazyReferenceMapper.write`: serialise the dirty partition (field, record)
into a columnar file of `output_size` rows, then drop the partition. The row
index of each staged chunk is recomputed with `writeFlat`. -/
def write (m : LRM) (fs : FStore) (field : String) (record : Nat) :
    Except Unit (LRM × FStore) := do
  let partition ← match dictLookup m.items (.tup (.s field) (.i record)) with
    | some (.dict d) => .ok d
    | _ => .error ()
  let osz ← output_size_of m fs field record
  let z ← _load_one_key m fs (field ++ "/.zarray")
  let (shape, chunks) ← match z with
    | .jsonBytes (.zarr sh ch) => .ok (sh, ch)
    | _ => .error ()
  let rows0 : List Row := List.replicate m.record_size defaultRow
  let rows ← partition.foldlM (fun rows kv => do
      let chunk_id := kv.1
      let chunk_ints ← match parseChunkId chunk_id with
        | some l => .ok l
        | none => .error ()
      let j := writeFlat chunk_ints shape chunks % m.record_size
      match kv.2 with
      | .arr1 u => .ok (rowPatch rows j (fun r => { r with path := u }))
      | .arr3 u o sz =>
          .ok (rowPatch rows j (fun r => { r with path := u, offset := o, size := sz }))
      | v => do
          let r ← proc_raw v
          .ok (rowPatch rows j (fun row => { row with raw := some r }))
    ) rows0
  let rows := rows.take osz
  return ({ m with items := dictErase m.items (.tup (.s field) (.i record)) },
          { fs with files := dictSet fs.files (field, record) rows })

/-- `LazyReferenceMapper.__setitem__`. Chunk keys stage the value in the
dirty partition (field, record) and write the partition out once its size
reaches `_output_size`; other keys store the raw value in `_items` and the
parsed JSON in `zmetadata`. -/
def setItem (m : LRM) (fs : FStore) (key : String) (value : PyVal) :
    Except Unit (LRM × FStore) := do
  if key.data.contains '/' ∧ ¬ is_meta key then do
    let (field, chunk) ← match splitOnce key with
      | some p => .ok p
      | none => .error ()
    let (record, _, _) ← key_to_record m key
    let sub := match dictLookup m.items (.tup (.s field) (.i (record : Int))) with
      | some (.dict d) => d
      | _ => []
    let sub := dictSet sub chunk value
    let m := { m with items := dictSet m.items (.tup (.s field) (.i (record : Int))) (.dict sub) }
    let osz ← output_size_of m fs field record
    if sub.length = osz then write m fs field record
    else return (m, fs)
  else do
    -- metadata or top-level: raw value into _items, json.loads(value) into
    -- zmetadata; only serialised-JSON values are modelled, any other value
    -- maps to the parse error
    let mv ← match value with
      | .jsonBytes v => .ok v
      | _ => .error ()
    return ({ m with
              items := dictSet m.items (.str key) (.v value),
              zmetadata := dictSet m.zmetadata key mv }, fs)

/-- `LazyReferenceMapper.flush`: iterate the `_items` keys, probing each
tuple key (field, record) with the swapped tuple (record, field) and writing
the partition only when that probe is truthy; then fold string metadata keys
into `zmetadata`, serialise `.zmetadata` and store it. (The page-cache clear
at the end has no counterpart because the cache is not modelled; a tuple key
never satisfies the Python test `".z" in k` unless a component equals ".z",
which no state built here contains.) -/
def flush (m : LRM) (fs : FStore) : Except Unit (LRM × FStore) := do
  let (m, fs) ← (m.items.map Prod.fst).foldlM (fun st k =>
      match k with
      | .tup a b =>
          if truthyItem (dictLookup st.1.items (.tup b a)) then
            match a, b with
            | .s field, .i record =>
                if 0 ≤ record then write st.1 st.2 field record.toNat
                else .error ()
            | _, _ => .error ()
          else .ok st
      | .str _ => .ok st) (m, fs)
  let metaKeys := m.items.filterMap (fun kv =>
      match kv.1 with
      | .str k => if k ≠ ".zmetadata" ∧ hasInfixL ".z".data k.data then some k else none
      | .tup _ _ => none)
  let m ← metaKeys.foldlM (fun (st : LRM) k => do
      let mv ← match dictLookup st.items (.str k) with
        | some (.v (.jsonBytes v)) => .ok v
        | _ => .error ()
      .ok { st with
            zmetadata := dictSet st.zmetadata k mv,
            items := dictErase st.items (.str k) }) m
  let met : PyVal := .zmetaFile m.record_size m.zmetadata
  let m := { m with items := dictSet m.items (.str ".zmetadata") (.v met) }
  let fs := { fs with zfile := (m.record_size, m.zmetadata) }
  return (m, fs)

/-- `LazyReferenceMapper.__init__` on an existing root: read `.zmetadata`,
parse record_size and the metadata map, and keep the raw file body in
`_items[".zmetadata"]`. -/
def openRoot (fs : FStore) : LRM :=
  { record_size := fs.zfile.1,
    zmetadata := fs.zfile.2,
    items := [(.str ".zmetadata", .v (.zmetaFile fs.zfile.1 fs.zfile.2))] }

/-! ### ReferenceFileSystem: reference resolution and cat_file

The eager reference map `self.references` is an association list of `PyVal`
(bytes, strings, [url] and [url, offset, size] lists). The backing
filesystems are a function parameter taking (url, start, end). -/

/-- A url as handled by the dispatcher: None stands for a reference whose
target url was null and was not replaced by a default target. -/
abbrev U := Option String

/-- Result of `_cat_common`: inline data, or a url with an optional byte
range to forward to the backing filesystem. -/
inductive CatOut where
  | inline (b : Bytes)
  | fetch (u : U) (s e : Option Int)
deriving DecidableEq, Repr

/-- `ReferenceFileSystem._cat_common` (path stripping is the identity on the
plain relative paths used here). A missing key raises FileNotFoundError;
a value that is not bytes, str or a reference list is outside the reference
dict contract and maps to an error. -/
def _cat_common (target : Option String) (refs : List (String × PyVal))
    (path : String) (start? end? : Option Int) : Except Unit CatOut := do
  let part ← match dictLookup refs path with
    | some v => .ok v
    | none => .error ()
  let part := match part with
    | .str s => PyVal.bytes (strBytes s)
    | v => v
  match part with
  | .bytes b =>
      if (strBytes "base64:").isPrefixOf b then return .inline (b64decodeBytes (b.drop 7))
      else return .inline b
  | .arr1 u =>
      let url := match u with | none => target | some x => some x
      return .fetch url start? end?
  | .arr3 u o sz =>
      let e0 := o + sz
      let s1 := match start? with
        | some st => if 0 ≤ st then o + st else e0 + st
        | none => o
      let e1 := match end? with
        | some en => if 0 ≤ en then o + en else e0 + en
        | none => e0
      let url := match u with | none => target | some x => some x
      return .fetch url (some s1) (some e1)
  | _ => .error ()

/-- Errors surfaced by cat_file: FileNotFoundError for an unknown path, and
ReferenceNotReachable (with the target url) wrapping a backing error. -/
inductive CatErr where
  | fnf (path : String)
  | rnr (path : String) (target : U)
deriving DecidableEq, Repr

/-- `ReferenceFileSystem.cat_file` (synchronous): resolve, slice inline data
with the raw start/end, or forward the resolved (url, start0, end0) range to
the backing filesystem. -/
def cat_file (backing : U → Option Int → Option Int → Except Unit Bytes)
    (target : Option String) (refs : List (String × PyVal)) (path : String)
    (start? end? : Option Int) : Except CatErr Bytes :=
  match _cat_common target refs path start? end? with
  | .error _ => .error (.fnf path)
  | .ok (.inline b) => .ok (pySlice b start? end?)
  | .ok (.fetch u s e) =>
      match backing u s e with
      | .ok b => .ok b
      | .error _ => .error (.rnr path u)

/-- `ReferenceFileSystem._cat_file` (asynchronous): the same resolution, but
the backing call receives the raw caller start/end instead of the resolved
start0/end0, and its result is not returned (the coroutine body has no
return statement on that path, so the awaited value is None). -/
def _cat_file_async (backing : U → Option Int → Option Int → Except Unit Bytes)
    (target : Option String) (refs : List (String × PyVal)) (path : String)
    (start? end? : Option Int) : Except CatErr (Option Bytes) :=
  match _cat_common target refs path start? end? with
  | .error _ => .error (.fnf path)
  | .ok (.inline b) => .ok (some (pySlice b start? end?))
  | .ok (.fetch u _ _) =>
      match backing u start? end? with
      | .ok _ => .ok none
      | .error _ => .error (.rnr path u)

/-! ### Version-1 spec ingest (`_process_references1`) -/

/-- A value of the `refs` mapping in a version-1 JSON spec. -/
inductive SpecVal where
  | str (s : String)
  | arr1 (u : String)
  | arr3 (u : String) (o sz : Int)
deriving DecidableEq, Repr

/-- The successive dict assignments `self.references[k] = ...` performed for
one refs entry by `_process_references1` on an instance with no templates:
for a "base64:"-prefixed string the decoded bytes are assigned first and then
unconditionally overwritten by the raw string. -/
def ingestAssignments1 (v : SpecVal) : List PyVal :=
  match v with
  | .str s =>
      (if (strBytes "base64:").isPrefixOf (strBytes s)
       then [PyVal.bytes (b64decodeBytes ((strBytes s).drop 7))]
       else [])
      ++ [PyVal.str s]
  | .arr1 u => [PyVal.arr1 (some u)]
  | .arr3 u o sz => [PyVal.arr3 (some u) o sz]

/-- The value left in `self.references[k]` after `_process_references1`
processes one refs entry (the last assignment wins). -/
def ingestValue1 (v : SpecVal) : PyVal :=
  (ingestAssignments1 v).getLastD PyVal.tomb

/-! ### The bulk `cat` pipeline -/

/-- A resolved request: inline bytes, or (url, start, end) as `_cat_common`
returns it when called without a caller range. -/
inductive RVal where
  | bytes (b : Bytes)
  | range (u : U) (s e : Option Int)
deriving DecidableEq, Repr

/-- View of a `_cat_common` result as a resolved request. -/
def toRVal : CatOut → RVal
  | .inline b => .bytes b
  | .fetch u s e => .range u s e

/-- An exception value held in the result dict of `cat`: a resolution
FileNotFoundError, a raw backing exception, or its ReferenceNotReachable
wrapping. -/
inductive ExcV where
  | fnf
  | backing
  | rnr
deriving DecidableEq, Repr

/-- A value of the result dict of `cat`. -/
inductive OutV where
  | bytes (b : Bytes)
  | exc (e : ExcV)
deriving DecidableEq, Repr

/-- The result dict of `cat`. -/
abbrev Out := List (String × OutV)

/-- The on_error policy of `cat`. -/
inductive OnErr where
  | raise
  | omit
  | ret
deriving DecidableEq, Repr

/-- Split a character list at the first "://" marker. -/
def splitProtoAux : List Char → Option (List Char × List Char)
  | [] => none
  | x :: xs =>
      if "://".data.isPrefixOf (x :: xs) then some ([], xs.drop 2)
      else match splitProtoAux xs with
        | some (a, b) => some (x :: a, b)
        | none => none

/-- `fsspec.core.split_protocol` (repository code outside src/), first
component: the protocol before "://" when present. -/
def protoOf (u : String) : Option String :=
  (splitProtoAux u.data).map (fun p => String.mk p.1)

/-- `_prot_in_references`: protocol of the url of a reference-list entry;
None for inline values, null urls and unknown paths. -/
def prot_in_references (refs : List (String × PyVal)) (path : String) : Option String :=
  match dictLookup refs path with
  | some (.arr1 u) => u.bind protoOf
  | some (.arr3 u _ _) => u.bind protoOf
  | _ => none

/-- `_protocol_groups` on a path list: paths grouped by resolved protocol,
keys in order of first appearance. -/
def protocol_groups (refs : List (String × PyVal)) (paths : List String) :
    List (Option String × List String) :=
  ((paths.map (prot_in_references refs)).dedup).map
    (fun k => (k, paths.filter (fun q => prot_in_references refs q = k)))

/-- The successful resolution of one path by `_cat_common` with no caller
range, when it does not raise. -/
def resolveOk (target : Option String) (refs : List (String × PyVal)) (q : String) :
    Option RVal :=
  (_cat_common target refs q none none).toOption.map toRVal

/-- The paths of a group whose resolution raises FileNotFoundError. -/
def resolveFails (target : Option String) (refs : List (String × PyVal))
    (gp : List String) : List String :=
  gp.filter (fun q => ¬ (_cat_common target refs q none none).toOption.isSome)

/-- The `zip(urls, starts, ends, paths)` lists of one group: the resolved
values (failures skipped) zipped against the full group path list — the zip
truncates, so after a failed resolution later paths pair with earlier
references, exactly as in the source. -/
def zOfGroup (target : Option String) (refs : List (String × PyVal))
    (gp : List String) : List (RVal × String) :=
  (gp.filterMap (resolveOk target refs)).zip gp

/-- Inline-resolved entries, written to the output dict during the first
processing loop. -/
def inlineEntries (z : List (RVal × String)) : List (String × Bytes) :=
  z.filterMap (fun e => match e.1 with | .bytes b => some (e.2, b) | _ => none)

/-- The whole_files set collected by the first loop: urls of entries whose
resolved start is None (kept as a list; only membership is used). -/
def wholeFilesOf (z : List (RVal × String)) : List U :=
  z.filterMap (fun e => match e.1 with | .range u none _ => some u | _ => none)

/-- First-pass merger triples: the whole-file entries. -/
def pass1Triples (z : List (RVal × String)) : List (U × Option Int × Option Int) :=
  z.filterMap (fun e => match e.1 with | .range u none en => some (u, none, en) | _ => none)

/-- Second-pass merger triples: ranged entries whose url is not in the
whole_files set. -/
def pass2Triples (z : List (RVal × String)) (wf : List U) :
    List (U × Option Int × Option Int) :=
  z.filterMap (fun e => match e.1 with
    | .range u (some s) en => if u ∈ wf then none else some (u, some s, en)
    | _ => none)

/-- The (urls2, starts2, ends2) lists handed to merge_offset_ranges for one
group. -/
def mergerInputOf (z : List (RVal × String)) : List (U × Option Int × Option Int) :=
  pass1Triples z ++ pass2Triples z (wholeFilesOf z)

/-- One sweep step of range merging: extend the current range while the next
sorted range stays within the gap and block budgets. -/
def sweepGo (mg mb : Int) : (Int × Int) → List (Int × Int) → List (Int × Int)
  | cur, [] => [cur]
  | cur, r :: rest =>
      if 0 ≤ mg ∧ r.1 - cur.2 ≤ mg ∧ max cur.2 r.2 - cur.1 ≤ mb
      then sweepGo mg mb (cur.1, max cur.2 r.2) rest
      else cur :: sweepGo mg mb r rest

/-- Range-merge sweep over a start-sorted list. -/
def sweepMerge (mg mb : Int) : List (Int × Int) → List (Int × Int)
  | [] => []
  | r :: rest => sweepGo mg mb r rest

/-- Insertion into a start-sorted range list. -/
def insertByStart (x : Int × Int) : List (Int × Int) → List (Int × Int)
  | [] => [x]
  | y :: ys => if x.1 ≤ y.1 then x :: y :: ys else y :: insertByStart x ys

/-- Insertion sort of ranges by start. -/
def sortByStart (l : List (Int × Int)) : List (Int × Int) :=
  l.foldr insertByStart []

/-- The ranges requested for one url. -/
def urlRanges (ts : List (U × Option Int × Option Int)) (u : U) :
    List (Option Int × Option Int) :=
  ts.filterMap (fun t => if t.1 = u then some (t.2.1, t.2.2) else none)

/-- Modelled from the spec: `merge_offset_ranges` (fsspec/utils.py, which is
repository code not under src/). Per url: when any request on the url is a
whole-file request (an endpoint is None), emit a single whole-file range and
drop the rest; otherwise sort by start and sweep, merging a neighbour only
when the inter-range gap is at most max_gap (merging disabled for negative
max_gap) and the merged block stays within max_block. -/
def merge_offset_ranges (mg mb : Int) (ts : List (U × Option Int × Option Int)) :
    List (U × Option Int × Option Int) :=
  ((ts.map (fun t => t.1)).dedup).flatMap (fun u =>
    let rs := urlRanges ts u
    if rs.any (fun r => r.1 = none ∨ r.2 = none) then [(u, none, none)]
    else (sweepMerge mg mb (sortByStart (rs.filterMap (fun r =>
        match r with | (some s, some e) => some (s, e) | _ => none)))).map
      (fun r => (u, some r.1, some r.2)))

/-- The backing `cat_ranges` contract for one merged range: fetch the object
and return the requested slice (the whole object when both endpoints are
None), or the per-range error. -/
def fetchRange (content : U → Except Unit Bytes) (u : U) (s e : Option Int) :
    Except Unit Bytes :=
  (content u).map (fun b => pySlice b s e)

/-- The value the unbundling loop assigns for an original request
(u, s, e) against one merged range with its fetch result: the whole-range
branch slices the full object with the original endpoints, the containment
branch slices relative to the merged start (a zero relative end means "to the
end", since `(e - ne) or None` is None for zero); otherwise no assignment.
Comparisons between an integer and None would raise in Python and cannot
fire, since a whole merged range is caught by the first branch. -/
def unbundleVal (u : U) (s e : Option Int) (t : U × Option Int × Option Int)
    (fb : Except Unit Bytes) : Option OutV :=
  if t.1 = u ∧ (t.2.1 = none ∨ t.2.2 = none) then
    some (match fb with | .ok b => .bytes (pySlice b s e) | .error _ => .exc .backing)
  else
    match s, e, t.2.1, t.2.2 with
    | some s0, some e0, some ns, some ne =>
        if t.1 = u ∧ ns ≤ s0 ∧ e0 ≤ ne then
          some (match fb with
            | .ok b =>
                .bytes (pySlice b (some (s0 - ns)) (if e0 - ne = 0 then none else some (e0 - ne)))
            | .error _ => .exc .backing)
        else none
    | _, _, _, _ => none

/-- The unbundling loop body for one original entry: skip paths already in
the output dict, otherwise scan every merged range and let the last matching
assignment win. An inline-resolved entry compares its bytes against urls and
never matches. -/
def unbundleEntry (merged3 : List ((U × Option Int × Option Int) × Except Unit Bytes))
    (out : Out) (entry : RVal × String) : Out :=
  if (dictLookup out entry.2).isSome then out
  else match entry.1 with
    | .bytes _ => out
    | .range u s e =>
        merged3.foldl (fun acc me =>
          match unbundleVal u s e me.1 me.2 with
          | some v => dictSet acc entry.2 v
          | none => acc) out

/-- The dict updates of `cat` for one protocol group that resolves without
aborting: record the resolution errors (kept for on_error="return"), write
the inline entries, merge and fetch the ranges, and unbundle. Relative to
the source the error entries and inline entries are written before instead
of interleaved with the resolution and first-pass loops — same dict
contents. -/
def groupStepBody (mg mb : Int) (content : U → Except Unit Bytes) (target : Option String)
    (refs : List (String × PyVal)) (onErr : OnErr) (out : Out) (gp : List String) : Out :=
  let fails := resolveFails target refs gp
  let out := if onErr = .ret then fails.foldl (fun o q => dictSet o q (.exc .fnf)) out else out
  let z := zOfGroup target refs gp
  let out := (inlineEntries z).foldl (fun o e => dictSet o e.1 (.bytes e.2)) out
  let merged := merge_offset_ranges mg mb (mergerInputOf z)
  let merged3 := merged.map (fun t => (t, fetchRange content t.1 t.2.1 t.2.2))
  z.foldl (unbundleEntry merged3) out

/-- The body of `cat` for one protocol group: a resolution failure aborts
the whole batch when on_error="raise" (the source raises at the first
failure — the same abort), otherwise the dict updates of `groupStepBody`
are applied. -/
def groupStep (mg mb : Int) (content : U → Except Unit Bytes) (target : Option String)
    (refs : List (String × PyVal)) (onErr : OnErr) (out : Out) (gp : List String) :
    Except Unit Out :=
  if onErr = .raise ∧ ¬ (resolveFails target refs gp).isEmpty then .error ()
  else .ok (groupStepBody mg mb content target refs onErr out gp)

/-- The final loop of `cat`: wrap exception values of known references as
ReferenceNotReachable — raising aborts, "return" replaces the value, and
"omit" leaves the entry untouched. -/
def wrapLoop (refs : List (String × PyVal)) (onErr : OnErr) (out : Out) :
    Except Unit Out :=
  out.foldlM (fun acc kv =>
    match kv.2 with
    | .exc _ =>
        if (dictLookup refs kv.1).isSome then
          match onErr with
          | .raise => .error ()
          | .omit => .ok acc
          | .ret => .ok (dictSet acc kv.1 (.exc .rnr))
        else .ok acc
    | .bytes _ => .ok acc) out

/-- `ReferenceFileSystem.cat` on a list of paths: group by protocol, run the
resolution / merge / fetch / unbundle pipeline per group, then apply the
error-wrapping loop. (The single-string-path unwrapping at the very end does
not apply to list inputs.) -/
def cat (mg mb : Int) (content : U → Except Unit Bytes) (target : Option String)
    (refs : List (String × PyVal)) (onErr : OnErr) (paths : List String) :
    Except Unit Out := do
  let groups := protocol_groups refs paths
  let out ← groups.foldlM (fun o g => groupStep mg mb content target refs onErr o g.2) []
  wrapLoop refs onErr out

/-- The merger inputs of one `cat` call, one list per protocol group. -/
def catMergerInputs (target : Option String) (refs : List (String × PyVal))
    (paths : List String) : List (List (U × Option Int × Option Int)) :=
  (protocol_groups refs paths).map (fun g => mergerInputOf (zOfGroup target refs g.2))

/-! ### `__len__` and `__iter__` of the lazy map -/

/-- First path segment, `p.split("/", 1)[0]`. -/
def firstSeg (s : String) : String :=
  String.mk ((splitChar '/' s.data).headD [])

/-- `LazyReferenceMapper.listdir`: top-level directory names derived from the
metadata keys, without empty or dot-led segments. The Python value is a set;
it is realised as a duplicate-free list (iteration order is immaterial to
the counting claims). -/
def listdirM (m : LRM) : List String :=
  ((m.zmetadata.map (fun kv => firstSeg kv.1)).filter
    (fun s => ¬ s.data.isEmpty ∧ ¬ ".".data.isPrefixOf s.data)).dedup

/-- The grid of a field as read by `__len__`/`__iter__`, defaulting to the
empty grid; the `fieldsOk` guard below captures the KeyError of a field with
no zarray entry. -/
def gridOfD (m : LRM) (field : String) : List Nat :=
  match dictLookup m.zmetadata (field ++ "/.zarray") with
  | some (.zarr sh ch) => gridDims sh ch
  | _ => []

/-- Whether every listed field has zarray metadata (otherwise `__len__` and
`__iter__` raise KeyError). -/
def fieldsOk (m : LRM) : Bool :=
  (listdirM m).all (fun f =>
    match dictLookup m.zmetadata (f ++ "/.zarray") with
    | some (.zarr _ _) => true
    | _ => false)

/-- `LazyReferenceMapper.__len__` (under `fieldsOk`): per listed field the
product of the grid (np.product of an empty grid is 1), plus the number of
metadata entries, plus the number of `_items` entries. -/
def lenCore (m : LRM) : Nat :=
  ((listdirM m).map (fun f =>
      if ".".data.isPrefixOf f.data then 1 else (gridOfD m f).prod)).sum
    + m.zmetadata.length + m.items.length

/-- Decimal digits of a natural number (fuel-based, kernel-reducible). -/
def natDigsAux : Nat → Nat → List Char
  | 0, _ => []
  | fuel + 1, n =>
      if n < 10 then [Char.ofNat (48 + n)]
      else natDigsAux fuel (n / 10) ++ [Char.ofNat (48 + n % 10)]

/-- Python str(n) for a natural number. -/
def natChars (n : Nat) : List Char := natDigsAux (n + 1) n

/-- `".".join(str(c) for c in ind)`. -/
def joinDots : List (List Char) → List Char
  | [] => []
  | [x] => x
  | x :: xs => x ++ '.' :: joinDots xs

/-- `np.ndindex(*chunk_sizes)`: all grid coordinates in row-major order. -/
def ndindexL : List Nat → List (List Nat)
  | [] => [[]]
  | d :: ds => (List.range d).flatMap (fun i => (ndindexL ds).map (fun t => i :: t))

/-- `LazyReferenceMapper._keys_in_field`: the expected chunk keys of a field
("field/0" for a scalar field). -/
def keys_in_field (m : LRM) (field : String) : List String :=
  let cs := gridOfD m field
  if cs.isEmpty then [field ++ "/0"]
  else (ndindexL cs).map (fun ix => field ++ "/" ++ String.mk (joinDots (ix.map natChars)))

/-- The string keys of the `_items` dict. -/
def itemStrKeys (m : LRM) : List String :=
  m.items.filterMap (fun kv => match kv.1 with | .str k => some k | _ => none)

/-- `LazyReferenceMapper.__iter__` (under `fieldsOk`): the string members of
`set(zmetadata) ∪ set(_items)` (a set, realised as a deduplicated list),
followed by the expected chunk keys of every listed field. -/
def iterKeysCore (m : LRM) : List String :=
  ((m.zmetadata.map (fun kv => kv.1)) ++ itemStrKeys m).dedup
    ++ (listdirM m).flatMap (keys_in_field m)

/-- `__len__` with the KeyError of a zarray-less field made explicit. -/
def lenModel (m : LRM) : Except Unit Nat :=
  if fieldsOk m then .ok (lenCore m) else .error ()

/-- `__iter__` with the KeyError of a zarray-less field made explicit. -/
def iterKeys (m : LRM) : Except Unit (List String) :=
  if fieldsOk m then .ok (iterKeysCore m) else .error ()

/-! ### Concrete states used by the evaluation theorems -/

/-- A store holding one field "f" of four chunks (shape [4], chunks [1])
with record_size 2 and no written record files. -/
def fs0 : FStore := { files := [], zfile := (2, [("f/.zarray", .zarr [4] [1])]) }

/-- The mapper freshly opened on `fs0`. -/
def m0 : LRM := openRoot fs0

/-- A mapper whose field "g" has shape [5,5] and chunks [2,2] (grid 3×3),
with record_size 10. -/
def m4 : LRM :=
  { record_size := 10, zmetadata := [("g/.zarray", .zarr [5, 5] [2, 2])], items := [] }

/-- A store holding one field "f" of two chunks with record_size 2. -/
def fs10 : FStore := { files := [], zfile := (2, [("f/.zarray", .zarr [2] [1])]) }

/-- The mapper freshly opened on `fs10`. -/
def m10 : LRM := openRoot fs10

/-- References for the cat misalignment scenario: only "p2" exists, as a
whole-file reference to "u". -/
def refs7 : List (String × PyVal) := [("p2", .arr1 (some "u"))]

/-- Backing content for the cat misalignment scenario. -/
def content7 : U → Except Unit Bytes :=
  fun x => if x = some "u" then .ok [104, 105] else .error ()

/-- A reference map with a single slice reference of offset 10 and size 5. -/
def refs9 : List (String × PyVal) := [("a", .arr3 (some "u") 10 5)]

/-- A backing filesystem returning [1, 2, 3] exactly for ranges starting at
byte 11 and [9] for every other range. -/
def backing9 : U → Option Int → Option Int → Except Unit Bytes :=
  fun _ s _ => if s = some 11 then .ok [1, 2, 3] else .ok [9]

/-- References for the whole-file-subsumes-slice witness: "a" reads all of
"u", "b" reads bytes [2, 5) of "u". -/
def refs5 : List (String × PyVal) :=
  [("a", .arr1 (some "u")), ("b", .arr3 (some "u") 2 3)]

/-- Backing content for the whole-file witness: "u" holds bytes 0..9. -/
def content5 : U → Except Unit Bytes :=
  fun x => if x = some "u" then .ok [0, 1, 2, 3, 4, 5, 6, 7, 8, 9] else .error ()

/-- The number of dirty-partition (tuple) keys of the `_items` dict. -/
def tupleKeyCount (m : LRM) : Nat :=
  (m.items.filter (fun kv => match kv.1 with | .tup _ _ => true | _ => false)).length

/-- The number of string `_items` keys that are also metadata-map keys (after
a metadata put, the key lives in both stores). -/
def sharedMetaKeyCount (m : LRM) : Nat :=
  ((itemStrKeys m).filter (fun k => k ∈ m.zmetadata.map (fun kv => kv.1))).length

/-- A mapper state with one staged dirty partition (tuple key) and the
metadata key "f/.zattrs" present in both `_items` and `zmetadata`, as left by
chunk and metadata puts on the two-chunk store. -/
def m10b : LRM :=
  { record_size := 2,
    zmetadata := [("f/.zarray", .zarr [2] [1]), ("f/.zattrs", .other "x")],
    items := [(.str ".zmetadata", .v (.zmetaFile 2 [("f/.zarray", .zarr [2] [1])])),
              (.str "f/.zattrs", .v (.jsonBytes (.other "x"))),
              (.tup (.s "f") (.i 0), .dict [("0", .bytes [1])])] }

/-! ## Theorems -/

/-- The number of expected chunk keys of a field equals the grid product. -/
theorem ndindexL_length (cs : List Nat) : (ndindexL cs).length = cs.prod := by
  induction cs with
  | nil => rfl
  | cons d ds ih =>
      have hc : (List.length ∘ fun i => List.map (fun t : List Nat => i :: t) (ndindexL ds))
          = fun _ => ds.prod := by
        funext i
        simp [ih]
      simp only [ndindexL, List.length_flatMap, hc, List.prod_cons]
      simp [List.map_const', List.sum_replicate, mul_comm]

/-- Counting a deduplicated append of two duplicate-free lists. -/
theorem dedup_append_length {α : Type} [DecidableEq α] (A B : List α)
    (hA : A.Nodup) (hB : B.Nodup) :
    ((A ++ B).dedup).length = A.length + (B.filter (fun b => ¬ b ∈ A)).length := by
  have h1 : ((A ++ B).dedup).length = ((A ++ B).toFinset).card := (List.card_toFinset _).symm
  rw [h1, List.toFinset_append]
  have h2 : A.toFinset ∪ B.toFinset = A.toFinset ∪ (B.toFinset \ A.toFinset) := by
    rw [Finset.union_sdiff_self_eq_union]
  rw [h2, Finset.card_union_of_disjoint Finset.disjoint_sdiff]
  congr 1
  · exact List.toFinset_card_of_nodup hA
  · have h3 : B.toFinset \ A.toFinset = (B.filter (fun b => ¬ b ∈ A)).toFinset := by
      ext x
      simp [List.mem_filter, and_comm]
    rw [h3, List.toFinset_card_of_nodup (hB.filter _)]

/-- Every `_items` entry has either a string key or a tuple key. -/
theorem items_length_split (l : List (ItemKey × ItemVal)) :
    l.length = (l.filterMap (fun kv => match kv.1 with | .str k => some k | _ => none)).length
      + (l.filter (fun kv => match kv.1 with | .tup _ _ => true | _ => false)).length := by
  induction l with
  | nil => rfl
  | cons kv rest ih =>
      match hk : kv.1 with
      | .str k => simp [List.filterMap_cons, List.filter_cons, hk, ih]; omega
      | .tup a b => simp [List.filterMap_cons, List.filter_cons, hk, ih]; omega

/-- `_keys_in_field` yields one key per expected chunk. -/
theorem keys_in_field_length (m : LRM) (f : String) :
    (keys_in_field m f).length = (gridOfD m f).prod := by
  unfold keys_in_field
  by_cases h : (gridOfD m f).isEmpty
  · rw [if_pos h]
    rw [List.isEmpty_iff] at h
    simp [h]
  · rw [if_neg h]
    simp [ndindexL_length]

/-- Listed fields never begin with a dot. -/
theorem listdir_not_dot (m : LRM) (f : String) (hf : f ∈ listdirM m) :
    ¬ ".".data.isPrefixOf f.data = true := by
  unfold listdirM at hf
  rw [List.mem_dedup, List.mem_filter] at hf
  have := hf.2
  simp only [decide_eq_true_eq, Bool.and_eq_true, decide_eq_true_eq] at this
  exact fun hc => this.2 hc

/-- C1. The claim states that `flush()` writes every dirty partition so that
after `put(k, v); flush()` a freshly reopened map returns v from `get(k)`.
The code probes `_items` with the swapped tuple (record, field), so no dirty
partition is ever written: on the four-chunk store, after staging "f/0" and
flushing, the store still holds no record file and `get("f/0")` on a freshly
reopened map raises KeyError instead of returning the staged reference. -/
theorem c1_flush_skips_dirty_partitions :
    (do
      let (m1, fs1) ← setItem m0 fs0 "f/0" (PyVal.arr3 (some "u") 0 5)
      let (_, fs2) ← flush m1 fs1
      pure (fs2.files, _load_one_key (openRoot fs2) fs2 "f/0")
      : Except Unit (List ((String × Nat) × List Row) × Except Unit PyVal))
    = .ok ([], .error ()) := by decide

/-- C2. The claim states that `get(k)` returns the value staged for k by
`put` while its partition is dirty. `__setitem__` stages under the tuple
(field, record) but `_load_one_key` probes the tuple (field, key) with the
full key string, so the staged value is never found: after `put("f/0", v)`
the partition ("f", 0) holds v, yet `get("f/0")` raises KeyError. -/
theorem c2_staged_value_invisible_to_get :
    (do
      let (m1, fs1) ← setItem m0 fs0 "f/0" (PyVal.arr3 (some "u") 0 5)
      pure (dictLookup m1.items (ItemKey.tup (.s "f") (.i 0)),
            _load_one_key m1 fs1 "f/0")
      : Except Unit (Option ItemVal × Except Unit PyVal))
    = .ok (some (.dict [("0", PyVal.arr3 (some "u") 0 5)]), .error ()) := by decide

/-- C3. The claim states that the expected row count of the final record is
N mod R, or R when R divides N (and N > 0). For N = 4 chunks and R = 2 the
final record (index 1) should expect 2 rows, but `_output_size` returns the
remainder 0, so a full final record is never eagerly written and would be
truncated to zero rows. -/
theorem c3_output_size_zero_on_full_final_record :
    output_size 2 [4] [1] 1 = 0 ∧ specExpectedRows 2 4 1 = 2
      ∧ output_size 2 [4] [1] 1 ≠ specExpectedRows 2 4 1 := by decide

/-- C4. The claim states that the flat index recomputed in `write` equals the
one `_key_to_record` computes, both over the ceil grid. `write` multiplies by
`sh // ch` (floor): for shape [5,5], chunks [2,2] (grid 3×3) and chunk id
"1.0", reading places the row at index 3 while writing places it at index 2. -/
theorem c4_write_ravel_differs_from_read_ravel :
    key_to_record m4 "g/1.0" = .ok (0, 3, 2)
      ∧ writeFlat [1, 0] [5, 5] [2, 2] % m4.record_size = 2
      ∧ writeFlat [1, 0] [5, 5] [2, 2] % m4.record_size ≠ 3 := by decide

/-- C7. The claim states that with on_error="omit" an errored path is absent
from the returned mapping. `cat` zips the resolved url list (failures
skipped) against the full path list, so after the unresolvable path "p1" the
reference of "p2" is paired with "p1": the batch returns the bytes of "u"
under the errored key "p1" and drops the valid path "p2" entirely. -/
theorem c7_cat_omit_misaligns_errored_paths :
    dictLookup refs7 "p1" = none
      ∧ content7 (some "u") = .ok [104, 105]
      ∧ cat 64000 256000000 content7 none refs7 .omit ["p1", "p2"]
          = .ok [("p1", .bytes [104, 105])] := by decide

/-- C9. The claim states that the asynchronous `_cat_file` and synchronous
`cat_file` resolve identically, forward the same resolved range and return
the same bytes. On the slice reference (u, 10, 5) with caller range (1, 4),
the synchronous path forwards the resolved range (11, 14) and returns its
bytes, while the asynchronous path forwards the raw caller range (1, 4) and
returns None because its body lacks a return statement. -/
theorem c9_async_cat_file_diverges_from_sync :
    cat_file backing9 none refs9 "a" (some 1) (some 4) = .ok [1, 2, 3]
      ∧ _cat_file_async backing9 none refs9 "a" (some 1) (some 4) = .ok none
      ∧ backing9 (some "u") (some 11) (some 14) = .ok [1, 2, 3]
      ∧ backing9 (some "u") (some 1) (some 4) = .ok [9] := by decide

/-- C8 counterexample. The claim states that a version-1 string value with
the "base64:" prefix is stored in the reference map as decoded bytes at
ingest. The decoded assignment is immediately overwritten by the raw string
("base64:aGVsbG8=" stays a string instead of becoming b"hello"). -/
theorem c8_base64_not_decoded_at_ingest_cx :
    ingestValue1 (.str "base64:aGVsbG8=") = .str "base64:aGVsbG8="
      ∧ ingestValue1 (.str "base64:aGVsbG8=") ≠ .bytes (strBytes "hello")
      ∧ b64decodeBytes (strBytes "aGVsbG8=") = strBytes "hello" := by decide

/-- C6. For a slice reference (u, o, sz), `_cat_common` forwards the range
(s1, e1) with s1 = o + start for start ≥ 0, s1 = (o + sz) + start for
negative start and s1 = o for a missing start — symmetrically for the end,
defaulting to o + sz; `cat_file` passes exactly (u, s1, e1) to the backing
filesystem; and for start, end within [-sz, sz] the pair is the absolute
half-open subrange of [o, o + sz) corresponding to Python slice semantics. -/
theorem c6_slice_range_arithmetic (refs : List (String × PyVal)) (path u : String)
    (o sz : Int) (start? end? : Option Int)
    (href : dictLookup refs path = some (.arr3 (some u) o sz)) :
    ∃ s1 e1,
      _cat_common none refs path start? end? = .ok (.fetch (some u) (some s1) (some e1))
      ∧ s1 = (match start? with
              | some st => if 0 ≤ st then o + st else (o + sz) + st
              | none => o)
      ∧ e1 = (match end? with
              | some en => if 0 ≤ en then o + en else (o + sz) + en
              | none => o + sz)
      ∧ (∀ backing, cat_file backing none refs path start? end?
            = match backing (some u) (some s1) (some e1) with
              | .ok b => .ok b
              | .error _ => .error (.rnr path (some u)))
      ∧ (∀ st en, start? = some st → end? = some en →
            -sz ≤ st → st ≤ sz → -sz ≤ en → en ≤ sz →
            s1 = o + (if 0 ≤ st then st else sz + st)
              ∧ e1 = o + (if 0 ≤ en then en else sz + en)
              ∧ o ≤ s1 ∧ s1 ≤ o + sz ∧ o ≤ e1 ∧ e1 ≤ o + sz) := by
  have h1 : _cat_common none refs path start? end?
      = .ok (.fetch (some u)
          (some (match start? with
                 | some st => if 0 ≤ st then o + st else (o + sz) + st
                 | none => o))
          (some (match end? with
                 | some en => if 0 ≤ en then o + en else (o + sz) + en
                 | none => o + sz))) := by
    unfold _cat_common
    rw [href]
    rfl
  refine ⟨_, _, h1, rfl, rfl, ?_, ?_⟩
  · intro backing
    simp only [cat_file, h1]
  · intro st en hst hen hb1 hb2 hb3 hb4
    subst hst; subst hen
    dsimp only
    refine ⟨?_, ?_, ?_, ?_, ?_, ?_⟩ <;> (split_ifs <;> omega)

/-- C6 witness: the slice reference (u, 10, 5) with caller range (-2, 4). -/
theorem c6_slice_range_arithmetic_witness :
    ∃ s1 e1,
      _cat_common none refs9 "a" (some (-2)) (some 4) = .ok (.fetch (some "u") (some s1) (some e1))
      ∧ s1 = (match (some (-2) : Option Int) with
              | some st => if 0 ≤ st then 10 + st else (10 + 5) + st
              | none => 10)
      ∧ e1 = (match (some 4 : Option Int) with
              | some en => if 0 ≤ en then 10 + en else (10 + 5) + en
              | none => 10 + 5)
      ∧ (∀ backing, cat_file backing none refs9 "a" (some (-2)) (some 4)
            = match backing (some "u") (some s1) (some e1) with
              | .ok b => .ok b
              | .error _ => .error (.rnr "a" (some "u")))
      ∧ (∀ st en, (some (-2) : Option Int) = some st → (some 4 : Option Int) = some en →
            -5 ≤ st → st ≤ 5 → -5 ≤ en → en ≤ 5 →
            s1 = 10 + (if 0 ≤ st then st else 5 + st)
              ∧ e1 = 10 + (if 0 ≤ en then en else 5 + en)
              ∧ 10 ≤ s1 ∧ s1 ≤ 10 + 5 ∧ 10 ≤ e1 ∧ e1 ≤ 10 + 5) :=
  c6_slice_range_arithmetic refs9 "a" "u" 10 5 (some (-2)) (some 4) (by decide)

/-- C8 amended. A "base64:"-prefixed string reference value is stored raw by
the version-1 ingest (the decoded assignment is dead); the classification
happens at read time instead: `_cat_common` encodes the string, recognises
the prefix and returns the decoded bytes as inline data. -/
theorem c8_base64_decoded_at_read (k s : String)
    (h : (strBytes "base64:").isPrefixOf (strBytes s) = true) :
    ingestValue1 (.str s) = .str s
      ∧ _cat_common none [(k, ingestValue1 (.str s))] k none none
          = .ok (.inline (b64decodeBytes ((strBytes s).drop 7))) := by
  have hval : ingestValue1 (.str s) = .str s := by
    unfold ingestValue1 ingestAssignments1
    cases hv : (strBytes "base64:").isPrefixOf (strBytes s) <;> simp
  refine ⟨hval, ?_⟩
  rw [hval]
  unfold _cat_common
  have hd : dictLookup [(k, PyVal.str s)] k = some (PyVal.str s) := by simp [dictLookup]
  rw [hd]
  show (if (strBytes "base64:").isPrefixOf (strBytes s) = true
        then (pure (CatOut.inline (b64decodeBytes ((strBytes s).drop 7))) : Except Unit CatOut)
        else pure (.inline (strBytes s))) = _
  rw [if_pos h]
  rfl

/-- C8 amended witness: the spec value "base64:aGVsbG8=" under key "a". -/
theorem c8_base64_decoded_at_read_witness :
    ingestValue1 (.str "base64:aGVsbG8=") = .str "base64:aGVsbG8="
      ∧ _cat_common none [("a", ingestValue1 (.str "base64:aGVsbG8="))] "a" none none
          = .ok (.inline (b64decodeBytes ((strBytes "base64:aGVsbG8=").drop 7))) :=
  c8_base64_decoded_at_read "a" "base64:aGVsbG8=" (by decide)

/-- C10 counterexample. The claim states that `len(map)` equals the number
of keys yielded by `__iter__` and that every `put` preserves this. On the
freshly opened two-chunk store both count 4, but after `put` of the metadata
key "f/.zattrs" the key is stored in both `_items` and `zmetadata`:
`__len__` counts 6 while iteration yields 5 keys. -/
theorem c10_len_iter_cx :
    lenModel m10 = .ok 4
      ∧ (iterKeys m10).map List.length = .ok 4
      ∧ (do
          let (m1, _) ← setItem m10 fs10 "f/.zattrs" (PyVal.jsonBytes (.other "x"))
          pure (lenModel m1, (iterKeys m1).map List.length)
          : Except Unit (Except Unit Nat × Except Unit Nat))
        = .ok (.ok 6, .ok 5) := by decide

/-- C10 amended. `__len__` exceeds the `__iter__` key count by exactly the
number of staged dirty-partition (tuple) keys plus the number of metadata
keys present in both `_items` and `zmetadata`: the two agree on a freshly
opened map, but a metadata put stores its key in both maps and is counted
twice by `__len__` while `__iter__` yields it once, and a chunk put adds a
tuple key that `__len__` counts but `__iter__` never yields. -/
theorem c10_len_eq_iter_plus_staged (m : LRM)
    (hz : (m.zmetadata.map (fun kv => kv.1)).Nodup)
    (hi : (m.items.map (fun kv => kv.1)).Nodup) :
    lenCore m = (iterKeysCore m).length + tupleKeyCount m + sharedMetaKeyCount m := by
  classical
  set zK := m.zmetadata.map (fun kv => kv.1) with hzK
  set sK := itemStrKeys m with hsK
  have hsk_eq : (m.items.map Prod.fst).filterMap
      (fun k => match k with | ItemKey.str s => some s | _ => none) = sK := by
    rw [List.filterMap_map]; rfl
  have hsnd : sK.Nodup := by
    rw [← hsk_eq]
    refine List.Nodup.filterMap ?_ hi
    intro a a' b hb hb'
    cases a <;> simp_all
    cases a' <;> simp_all
  have hiter : (iterKeysCore m).length
      = zK.length + (sK.filter (fun b => ¬ b ∈ zK)).length
        + ((listdirM m).map (fun f => (gridOfD m f).prod)).sum := by
    unfold iterKeysCore
    rw [List.length_append, dedup_append_length zK sK hz hsnd, List.length_flatMap]
    congr 2
    refine List.map_congr_left ?_
    intro f _
    exact keys_in_field_length m f
  have hlen : lenCore m
      = ((listdirM m).map (fun f => (gridOfD m f).prod)).sum
        + zK.length + m.items.length := by
    unfold lenCore
    have : ((listdirM m).map (fun f =>
        if ".".data.isPrefixOf f.data then 1 else (gridOfD m f).prod))
        = (listdirM m).map (fun f => (gridOfD m f).prod) := by
      refine List.map_congr_left ?_
      intro f hf
      rw [if_neg (listdir_not_dot m f hf)]
    rw [this]
    simp [hzK]
  have hsplit : m.items.length = sK.length + tupleKeyCount m := by
    rw [hsK]
    unfold itemStrKeys tupleKeyCount
    exact items_length_split m.items
  have hpart : sK.length = sharedMetaKeyCount m + (sK.filter (fun b => ¬ b ∈ zK)).length := by
    have h0 := sK.length_eq_length_filter_add (fun k => k ∈ zK)
    have h1 : (sK.filter (fun x => !decide (x ∈ zK))) = sK.filter (fun b => ¬ b ∈ zK) := by
      refine List.filter_congr ?_
      intro x _
      simp
    rw [h1] at h0
    have h2 : sharedMetaKeyCount m = (sK.filter (fun k => k ∈ zK)).length := by
      unfold sharedMetaKeyCount
      rw [← hsK, ← hzK]
    omega
  omega

/-- C10 amended witness: the state `m10b` with one staged partition and one
metadata key in both stores (7 = 5 + 1 + 1). -/
theorem c10_len_eq_iter_plus_staged_witness :
    lenCore m10b = (iterKeysCore m10b).length + tupleKeyCount m10b + sharedMetaKeyCount m10b :=
  c10_len_eq_iter_plus_staged m10b (by decide) (by decide)

theorem dictLookup_set_self {κ α : Type} [DecidableEq κ] (d : List (κ × α)) (k : κ) (v : α) :
    dictLookup (dictSet d k v) k = some v := by
  induction d with
  | nil => simp [dictSet, dictLookup]
  | cons kv rest ih =>
      by_cases h : kv.1 = k
      · simp [dictSet, dictLookup, h]
      · simp [dictSet, dictLookup, h, ih]

theorem dictLookup_set_ne {κ α : Type} [DecidableEq κ] (d : List (κ × α)) (k k' : κ) (v : α)
    (h : k' ≠ k) :
    dictLookup (dictSet d k v) k' = dictLookup d k' := by
  induction d with
  | nil => simp [dictSet, dictLookup, Ne.symm h]
  | cons kv rest ih =>
      by_cases hk : kv.1 = k
      · simp [dictSet, dictLookup, hk, Ne.symm h]
      · by_cases hk' : kv.1 = k'
        · simp [dictSet, dictLookup, hk, hk', h]
        · simp [dictSet, dictLookup, hk, hk', ih]

theorem mem_keys_dictSet {κ α : Type} [DecidableEq κ] (d : List (κ × α)) (k x : κ) (v : α)
    (hx : x ∈ (dictSet d k v).map Prod.fst) : x ∈ d.map Prod.fst ∨ x = k := by
  induction d with
  | nil =>
      simp only [dictSet, List.map_cons, List.map_nil] at hx
      rcases List.mem_cons.mp hx with h1 | h1
      · exact Or.inr h1
      · cases h1
  | cons kv rest ih =>
      by_cases h : kv.1 = k
      · simp only [dictSet, if_pos h, List.map_cons] at hx
        rcases List.mem_cons.mp hx with h1 | h1
        · exact Or.inr h1
        · exact Or.inl (by rw [List.map_cons]; exact List.mem_cons_of_mem _ h1)
      · simp only [dictSet, if_neg h, List.map_cons] at hx
        rcases List.mem_cons.mp hx with h1 | h1
        · exact Or.inl (by rw [List.map_cons]; exact h1 ▸ List.mem_cons_self _ _)
        · rcases ih h1 with h2 | h2
          · exact Or.inl (by rw [List.map_cons]; exact List.mem_cons_of_mem _ h2)
          · exact Or.inr h2

theorem nodupKeys_dictSet {κ α : Type} [DecidableEq κ] (d : List (κ × α)) (k : κ) (v : α)
    (h : (d.map Prod.fst).Nodup) : ((dictSet d k v).map Prod.fst).Nodup := by
  induction d with
  | nil => simp [dictSet]
  | cons kv rest ih =>
      by_cases hk : kv.1 = k
      · rw [show dictSet (kv :: rest) k v = (k, v) :: rest from by simp [dictSet, hk]]
        rw [List.map_cons, List.nodup_cons]
        rw [List.map_cons, List.nodup_cons] at h
        exact ⟨hk ▸ h.1, h.2⟩
      · rw [show dictSet (kv :: rest) k v = kv :: dictSet rest k v from by simp [dictSet, hk]]
        rw [List.map_cons, List.nodup_cons]
        rw [List.map_cons, List.nodup_cons] at h
        refine ⟨?_, ih h.2⟩
        intro hc
        rcases mem_keys_dictSet rest k kv.1 v hc with h3 | h3
        · exact h.1 h3
        · exact hk h3

theorem dictLookup_of_mem_nodupKeys {κ α : Type} [DecidableEq κ] (d : List (κ × α))
    (k : κ) (v : α) (hn : (d.map Prod.fst).Nodup) (h : (k, v) ∈ d) :
    dictLookup d k = some v := by
  induction d with
  | nil => cases h
  | cons kv rest ih =>
      rw [List.map_cons, List.nodup_cons] at hn
      rcases List.mem_cons.mp h with h1 | h1
      · subst h1
        simp [dictLookup]
      · have hk : kv.1 ≠ k := by
          intro hc
          exact hn.1 (hc ▸ List.mem_map_of_mem Prod.fst h1)
        simp [dictLookup, hk, ih hn.2 h1]



theorem lookup_foldl_inline (es : List (String × Bytes)) (out : Out) (p : String)
    (h : ∀ e ∈ es, e.1 ≠ p) :
    dictLookup (es.foldl (fun o e => dictSet o e.1 (OutV.bytes e.2)) out) p
      = dictLookup out p := by
  induction es generalizing out with
  | nil => rfl
  | cons e rest ih =>
      rw [List.foldl_cons, ih _ (fun x hx => h x (List.mem_cons_of_mem _ hx)),
        dictLookup_set_ne _ _ _ _ (fun hc => h e (List.mem_cons_self _ _) hc.symm)]

theorem lookup_foldl_errs (qs : List String) (out : Out) (p : String)
    (h : ∀ q ∈ qs, q ≠ p) :
    dictLookup (qs.foldl (fun o q => dictSet o q (OutV.exc .fnf)) out) p
      = dictLookup out p := by
  induction qs generalizing out with
  | nil => rfl
  | cons q rest ih =>
      rw [List.foldl_cons, ih _ (fun x hx => h x (List.mem_cons_of_mem _ hx)),
        dictLookup_set_ne _ _ _ _ (fun hc => h q (List.mem_cons_self _ _) hc.symm)]

theorem lookup_unbundleInner_ne
    (ms : List ((U × Option Int × Option Int) × Except Unit Bytes))
    (out : Out) (u : U) (s e : Option Int) (q p : String) (h : q ≠ p) :
    dictLookup (ms.foldl (fun acc me =>
        match unbundleVal u s e me.1 me.2 with
        | some v => dictSet acc q v
        | none => acc) out) p = dictLookup out p := by
  induction ms generalizing out with
  | nil => rfl
  | cons me rest ih =>
      rw [List.foldl_cons]
      cases hv : unbundleVal u s e me.1 me.2 with
      | none =>
          dsimp only
          exact ih out
      | some v =>
          dsimp only
          rw [ih]
          exact dictLookup_set_ne _ _ _ _ (Ne.symm h)

theorem lookup_unbundleEntry_ne
    (merged3 : List ((U × Option Int × Option Int) × Except Unit Bytes))
    (out : Out) (entry : RVal × String) (p : String) (h : entry.2 ≠ p) :
    dictLookup (unbundleEntry merged3 out entry) p = dictLookup out p := by
  rcases entry with ⟨rv, q⟩
  unfold unbundleEntry
  by_cases h0 : (dictLookup out q).isSome
  · rw [if_pos h0]
  · rw [if_neg h0]
    cases rv with
    | bytes b => rfl
    | range u s e => exact lookup_unbundleInner_ne _ _ _ _ _ _ _ h

theorem lookup_foldl_unbundle
    (z : List (RVal × String))
    (merged3 : List ((U × Option Int × Option Int) × Except Unit Bytes))
    (out : Out) (p : String) (h : ∀ e ∈ z, e.2 ≠ p) :
    dictLookup (z.foldl (unbundleEntry merged3) out) p = dictLookup out p := by
  induction z generalizing out with
  | nil => rfl
  | cons e rest ih =>
      rw [List.foldl_cons, ih _ (fun x hx => h x (List.mem_cons_of_mem _ hx)),
        lookup_unbundleEntry_ne _ _ _ _ (h e (List.mem_cons_self _ _))]

theorem lookup_foldl_lastWins {M : Type} (ms : List M) (g : M → Option OutV)
    (out : Out) (p : String) :
    dictLookup (ms.foldl (fun acc me =>
        match g me with
        | some v => dictSet acc p v
        | none => acc) out) p
      = (match (ms.filterMap g).getLast? with
         | some v => some v
         | none => dictLookup out p) := by
  induction ms generalizing out with
  | nil => rfl
  | cons me rest ih =>
      rw [List.foldl_cons]
      cases hv : g me with
      | none =>
          dsimp only
          rw [ih, List.filterMap_cons_none hv]
      | some v =>
          dsimp only
          rw [ih, List.filterMap_cons_some hv]
          cases hl : (rest.filterMap g).getLast? with
          | none =>
              rw [List.getLast?_eq_none_iff] at hl
              rw [hl]
              simp [dictLookup_set_self]
          | some w =>
              have h2 : (v :: rest.filterMap g).getLast? = some w := by
                cases hfm : rest.filterMap g with
                | nil => rw [hfm] at hl; cases hl
                | cons a l =>
                    rw [hfm] at hl
                    rw [List.getLast?_cons_cons, hl]
              rw [h2]



theorem unbundleVal_ne_url (u : U) (s e : Option Int) (t : U × Option Int × Option Int)
    (fb : Except Unit Bytes) (h : t.1 ≠ u) : unbundleVal u s e t fb = none := by
  unfold unbundleVal
  rw [if_neg (fun hc => h hc.1)]
  cases s <;> cases e <;> cases ht1 : t.2.1 <;> cases ht2 : t.2.2 <;>
    simp [h]

theorem pySlice_none_none (b : Bytes) : pySlice b none none = b := by
  simp [pySlice]

theorem filterMap_flatMap {α β γ : Type} (l : List α) (g : α → List β) (f : β → Option γ) :
    (l.flatMap g).filterMap f = l.flatMap (fun x => (g x).filterMap f) := by
  induction l with
  | nil => rfl
  | cons a r ih => simp [List.flatMap_cons, List.filterMap_append, ih]

theorem flatMap_eq_single {α β : Type} (l : List α) (f : α → List β) (u : α) (v : β)
    (hu : u ∈ l) (hn : l.Nodup) (hothers : ∀ x ∈ l, x ≠ u → f x = []) (hfu : f u = [v]) :
    l.flatMap f = [v] := by
  induction l with
  | nil => cases hu
  | cons a r ih =>
      rw [List.flatMap_cons]
      rcases List.mem_cons.mp hu with h1 | h1
      · subst h1
        rw [hfu]
        have hr : r.flatMap f = [] := by
          refine List.flatMap_eq_nil_iff.mpr ?_
          intro x hx
          refine hothers x (List.mem_cons_of_mem _ hx) ?_
          intro hc
          exact (List.nodup_cons.mp hn).1 (hc ▸ hx)
        rw [hr, List.append_nil]
      · have ha : a ≠ u := fun hc => (List.nodup_cons.mp hn).1 (hc ▸ h1)
        rw [hothers a (List.mem_cons_self _ _) ha, List.nil_append]
        exact ih h1 (List.nodup_cons.mp hn).2 (fun x hx hxu => hothers x (List.mem_cons_of_mem _ hx) hxu)

theorem merged_unbundle_whole (mg mb : Int) (content : U → Except Unit Bytes)
    (mi : List (U × Option Int × Option Int)) (u : U) (s e : Option Int) (cb : Bytes)
    (hw : (u, (none : Option Int), (none : Option Int)) ∈ mi)
    (hc : content u = .ok cb) :
    ((merge_offset_ranges mg mb mi).map
        (fun t => (t, fetchRange content t.1 t.2.1 t.2.2))).filterMap
      (fun me => unbundleVal u s e me.1 me.2)
      = [OutV.bytes (pySlice cb s e)] := by
  rw [List.filterMap_map]
  unfold merge_offset_ranges
  rw [filterMap_flatMap]
  refine flatMap_eq_single _ _ u _ ?_ (List.nodup_dedup _) ?_ ?_
  · rw [List.mem_dedup]
    exact List.mem_map_of_mem (fun t => t.1) hw
  · intro x hx hxu
    dsimp only
    by_cases hb : (urlRanges mi x).any (fun r => r.1 = none ∨ r.2 = none)
    · rw [if_pos hb]
      refine List.filterMap_eq_nil_iff.mpr ?_
      intro a ha
      rcases List.mem_singleton.mp ha with rfl
      exact unbundleVal_ne_url _ _ _ _ _ hxu
    · rw [if_neg hb]
      rw [List.filterMap_map]
      refine List.filterMap_eq_nil_iff.mpr ?_
      intro a _
      exact unbundleVal_ne_url _ _ _ _ _ hxu
  · have hmem : ((none : Option Int), (none : Option Int)) ∈ urlRanges mi u := by
      refine List.mem_filterMap.mpr ⟨(u, none, none), hw, ?_⟩
      simp
    have hany : (urlRanges mi u).any (fun r => r.1 = none ∨ r.2 = none) = true := by
      refine List.any_eq_true.mpr ⟨(none, none), hmem, ?_⟩
      simp
    dsimp only
    rw [if_pos hany]
    simp [List.filterMap, unbundleVal, fetchRange, hc, Except.map, pySlice_none_none]



theorem cat_common_eq (target : Option String) (refs : List (String × PyVal))
    (q : String) (s? e? : Option Int) :
    _cat_common target refs q s? e?
      = (match dictLookup refs q with
         | none => .error ()
         | some (.bytes b) =>
             if (strBytes "base64:").isPrefixOf b
             then .ok (.inline (b64decodeBytes (b.drop 7)))
             else .ok (.inline b)
         | some (.str s) =>
             if (strBytes "base64:").isPrefixOf (strBytes s)
             then .ok (.inline (b64decodeBytes ((strBytes s).drop 7)))
             else .ok (.inline (strBytes s))
         | some (.arr1 uu) =>
             .ok (.fetch (match uu with | none => target | some x => some x) s? e?)
         | some (.arr3 uu o sz) =>
             .ok (.fetch (match uu with | none => target | some x => some x)
               (some (match s? with
                      | some st => if 0 ≤ st then o + st else (o + sz) + st
                      | none => o))
               (some (match e? with
                      | some en => if 0 ≤ en then o + en else (o + sz) + en
                      | none => o + sz)))
         | some _ => .error ()) := by
  unfold _cat_common
  cases hl : dictLookup refs q with
  | none => rfl
  | some val => cases val <;> rfl



theorem option_match_eta (uu : Option String) :
    (match uu with | none => (none : Option String) | some x => some x) = uu := by
  cases uu <;> rfl

theorem resolveOk_start_none (refs : List (String × PyVal)) (q : String) (u' : U)
    (e : Option Int) (h : resolveOk none refs q = some (.range u' none e)) :
    e = none ∧ dictLookup refs q = some (.arr1 u') := by
  unfold resolveOk at h
  rw [cat_common_eq] at h
  cases hl : dictLookup refs q with
  | none => rw [hl] at h; cases h
  | some val =>
      rw [hl] at h
      cases val with
      | bytes b =>
          by_cases hb : (strBytes "base64:").isPrefixOf b <;>
            simp [hb, Except.toOption, toRVal] at h
      | str s =>
          by_cases hb : (strBytes "base64:").isPrefixOf (strBytes s) <;>
            simp [hb, Except.toOption, toRVal] at h
      | arr1 uu =>
          simp only [Except.toOption, Option.map, toRVal, option_match_eta,
            Option.some.injEq, RVal.range.injEq] at h
          exact ⟨h.2.2.symm, by rw [h.1]⟩
      | arr3 uu o sz =>
          simp only [Except.toOption, Option.map, toRVal, option_match_eta,
            Option.some.injEq, RVal.range.injEq] at h
          exact absurd h.2.1 (by simp)
      | jsonBytes v => simp [Except.toOption, toRVal] at h
      | tomb => simp [Except.toOption, toRVal] at h
      | zmetaFile a b => simp [Except.toOption, toRVal] at h

theorem resolveOk_start_some (refs : List (String × PyVal)) (q : String) (u' : U)
    (s0 : Int) (e0 : Option Int)
    (h : resolveOk none refs q = some (.range u' (some s0) e0)) :
    ∃ o sz, dictLookup refs q = some (.arr3 u' o sz) ∧ s0 = o ∧ e0 = some (o + sz) := by
  unfold resolveOk at h
  rw [cat_common_eq] at h
  cases hl : dictLookup refs q with
  | none => rw [hl] at h; cases h
  | some val =>
      rw [hl] at h
      cases val with
      | bytes b =>
          by_cases hb : (strBytes "base64:").isPrefixOf b <;>
            simp [hb, Except.toOption, toRVal] at h
      | str s =>
          by_cases hb : (strBytes "base64:").isPrefixOf (strBytes s) <;>
            simp [hb, Except.toOption, toRVal] at h
      | arr1 uu =>
          simp only [Except.toOption, Option.map, toRVal, option_match_eta,
            Option.some.injEq, RVal.range.injEq] at h
          exact absurd h.2.1 (by simp)
      | arr3 uu o sz =>
          simp only [Except.toOption, Option.map, toRVal, option_match_eta,
            Option.some.injEq, RVal.range.injEq] at h
          refine ⟨o, sz, ?_, ?_, ?_⟩
          · rw [h.1]
          · have := h.2.1
            simpa using this.symm
          · exact h.2.2.symm
      | jsonBytes v => simp [Except.toOption, toRVal] at h
      | tomb => simp [Except.toOption, toRVal] at h
      | zmetaFile a b => simp [Except.toOption, toRVal] at h



theorem prot_of_arr1 (refs : List (String × PyVal)) (q : String) (uu : Option String)
    (h : dictLookup refs q = some (.arr1 uu)) :
    prot_in_references refs q = uu.bind protoOf := by
  simp [prot_in_references, h]

theorem prot_of_arr3 (refs : List (String × PyVal)) (q : String) (uu : Option String)
    (o sz : Int) (h : dictLookup refs q = some (.arr3 uu o sz)) :
    prot_in_references refs q = uu.bind protoOf := by
  simp [prot_in_references, h]

theorem zOfGroup_eq_map (target : Option String) (refs : List (String × PyVal))
    (gp : List String) (h : ∀ q ∈ gp, (resolveOk target refs q).isSome) :
    zOfGroup target refs gp
      = gp.map (fun q => ((resolveOk target refs q).getD (.bytes []), q)) := by
  unfold zOfGroup
  induction gp with
  | nil => rfl
  | cons q rest ih =>
      obtain ⟨r, hr⟩ := Option.isSome_iff_exists.mp (h q (List.mem_cons_self _ _))
      rw [List.filterMap_cons_some hr, List.zip_cons_cons, List.map_cons,
        ih (fun x hx => h x (List.mem_cons_of_mem _ hx))]
      rw [hr]
      rfl

theorem resolveFails_eq_nil (target : Option String) (refs : List (String × PyVal))
    (gp : List String) (h : ∀ q ∈ gp, (resolveOk target refs q).isSome) :
    resolveFails target refs gp = [] := by
  unfold resolveFails
  rw [List.filter_eq_nil_iff]
  intro q hq
  have h2 := h q hq
  unfold resolveOk at h2
  rw [Option.isSome_map'] at h2
  simp [h2]



theorem inlineEntries_key_mem (z : List (RVal × String)) (e : String × Bytes)
    (he : e ∈ inlineEntries z) : ∃ e0 ∈ z, e0.2 = e.1 ∧ ∃ b, e0.1 = RVal.bytes b := by
  obtain ⟨e0, he0, hsome⟩ := List.mem_filterMap.mp he
  refine ⟨e0, he0, ?_⟩
  cases hr : e0.1 with
  | bytes b =>
      rw [hr] at hsome
      cases hsome
      exact ⟨rfl, b, rfl⟩
  | range u s en =>
      rw [hr] at hsome
      cases hsome

theorem mem_of_mem_resolveFails (target : Option String) (refs : List (String × PyVal))
    (gp : List String) (q : String) (hq : q ∈ resolveFails target refs gp) : q ∈ gp := by
  unfold resolveFails at hq
  exact (List.mem_filter.mp hq).1

theorem groupStepBody_lookup_ne (mg mb : Int) (content : U → Except Unit Bytes)
    (target : Option String) (refs : List (String × PyVal)) (onErr : OnErr)
    (out : Out) (gp : List String) (p : String) (hp : ¬ p ∈ gp) :
    dictLookup (groupStepBody mg mb content target refs onErr out gp) p
      = dictLookup out p := by
  unfold groupStepBody
  have hz : ∀ e ∈ zOfGroup target refs gp, e.2 ≠ p := by
    intro e he hc
    exact hp (hc ▸ (List.of_mem_zip he).2)
  have hinline : ∀ e ∈ inlineEntries (zOfGroup target refs gp), e.1 ≠ p := by
    intro e he hc
    obtain ⟨e0, he0, h2, _, _⟩ := inlineEntries_key_mem _ _ he
    exact hp (hc ▸ h2 ▸ (List.of_mem_zip he0).2)
  have herr : ∀ q ∈ resolveFails target refs gp, q ≠ p := by
    intro q hq hc
    exact hp (hc ▸ mem_of_mem_resolveFails _ _ _ _ hq)
  dsimp only
  rw [lookup_foldl_unbundle _ _ _ _ hz, lookup_foldl_inline _ _ _ hinline]
  cases onErr
  · rw [if_neg (by decide : ¬ (OnErr.raise = OnErr.ret))]
  · rw [if_neg (by decide : ¬ (OnErr.omit = OnErr.ret))]
  · rw [if_pos rfl, lookup_foldl_errs _ _ _ herr]

theorem nodupKeys_foldl_inline (es : List (String × Bytes)) (out : Out)
    (h : (out.map Prod.fst).Nodup) :
    ((es.foldl (fun o e => dictSet o e.1 (OutV.bytes e.2)) out).map Prod.fst).Nodup := by
  induction es generalizing out with
  | nil => exact h
  | cons e rest ih => exact ih _ (nodupKeys_dictSet _ _ _ h)

theorem nodupKeys_foldl_errs (qs : List String) (out : Out)
    (h : (out.map Prod.fst).Nodup) :
    ((qs.foldl (fun o q => dictSet o q (OutV.exc .fnf)) out).map Prod.fst).Nodup := by
  induction qs generalizing out with
  | nil => exact h
  | cons q rest ih => exact ih _ (nodupKeys_dictSet _ _ _ h)

theorem nodupKeys_unbundleInner
    (ms : List ((U × Option Int × Option Int) × Except Unit Bytes))
    (out : Out) (u : U) (s e : Option Int) (q : String)
    (h : (out.map Prod.fst).Nodup) :
    (((ms.foldl (fun acc me =>
        match unbundleVal u s e me.1 me.2 with
        | some v => dictSet acc q v
        | none => acc) out)).map Prod.fst).Nodup := by
  induction ms generalizing out with
  | nil => exact h
  | cons me rest ih =>
      rw [List.foldl_cons]
      cases hv : unbundleVal u s e me.1 me.2 with
      | none =>
          dsimp only
          exact ih _ h
      | some v =>
          dsimp only
          exact ih _ (nodupKeys_dictSet _ _ _ h)

theorem nodupKeys_unbundleEntry
    (merged3 : List ((U × Option Int × Option Int) × Except Unit Bytes))
    (out : Out) (entry : RVal × String)
    (h : (out.map Prod.fst).Nodup) :
    ((unbundleEntry merged3 out entry).map Prod.fst).Nodup := by
  rcases entry with ⟨rv, q⟩
  unfold unbundleEntry
  by_cases h0 : (dictLookup out q).isSome
  · rw [if_pos h0]; exact h
  · rw [if_neg h0]
    cases rv with
    | bytes b => exact h
    | range u s e => exact nodupKeys_unbundleInner _ _ _ _ _ _ h

theorem nodupKeys_foldl_unbundle
    (z : List (RVal × String))
    (merged3 : List ((U × Option Int × Option Int) × Except Unit Bytes))
    (out : Out) (h : (out.map Prod.fst).Nodup) :
    ((z.foldl (unbundleEntry merged3) out).map Prod.fst).Nodup := by
  induction z generalizing out with
  | nil => exact h
  | cons e rest ih => exact ih _ (nodupKeys_unbundleEntry _ _ _ h)

theorem groupStepBody_nodupKeys (mg mb : Int) (content : U → Except Unit Bytes)
    (target : Option String) (refs : List (String × PyVal)) (onErr : OnErr)
    (out : Out) (gp : List String) (h : (out.map Prod.fst).Nodup) :
    ((groupStepBody mg mb content target refs onErr out gp).map Prod.fst).Nodup := by
  unfold groupStepBody
  dsimp only
  refine nodupKeys_foldl_unbundle _ _ _ (nodupKeys_foldl_inline _ _ ?_)
  cases onErr
  · rw [if_neg (by decide : ¬ (OnErr.raise = OnErr.ret))]
    exact h
  · rw [if_neg (by decide : ¬ (OnErr.omit = OnErr.ret))]
    exact h
  · rw [if_pos rfl]
    exact nodupKeys_foldl_errs _ _ h



theorem unbundleEntry_fresh
    (merged3 : List ((U × Option Int × Option Int) × Except Unit Bytes))
    (out : Out) (u : U) (s e : Option Int) (p : String)
    (hout : dictLookup out p = none) :
    unbundleEntry merged3 out (RVal.range u s e, p)
      = merged3.foldl (fun acc me =>
          match unbundleVal u s e me.1 me.2 with
          | some v => dictSet acc p v
          | none => acc) out := by
  unfold unbundleEntry
  rw [if_neg (by rw [hout]; simp)]

theorem groupStepBody_lookup_whole_slice (mg mb : Int) (content : U → Except Unit Bytes)
    (refs : List (String × PyVal)) (onErr : OnErr) (out : Out) (gp : List String)
    (hgnd : gp.Nodup)
    (hres : ∀ q ∈ gp, (resolveOk none refs q).isSome)
    (p0 p u : String) (o sz : Int) (cb : Bytes)
    (hp0 : p0 ∈ gp)
    (hr0 : resolveOk none refs p0 = some (.range (some u) none none))
    (hp : p ∈ gp)
    (hr : resolveOk none refs p = some (.range (some u) (some o) (some (o + sz))))
    (hout : dictLookup out p = none)
    (hc : content (some u) = .ok cb) :
    dictLookup (groupStepBody mg mb content none refs onErr out gp) p
      = some (.bytes (pySlice cb (some o) (some (o + sz)))) := by
  obtain ⟨l1, l2, hgp⟩ := List.append_of_mem hp
  subst hgp
  have hpl1 : ¬ p ∈ l1 := by
    rw [List.nodup_append] at hgnd
    intro hcp
    exact hgnd.2.2 hcp (List.mem_cons_self _ _)
  have hpl2 : ¬ p ∈ l2 := by
    rw [List.nodup_append] at hgnd
    exact (List.nodup_cons.mp hgnd.2.1).1
  unfold groupStepBody
  dsimp only
  rw [resolveFails_eq_nil none refs _ hres]
  have hifout : (if onErr = OnErr.ret
      then List.foldl (fun o q => dictSet o q (OutV.exc ExcV.fnf)) out []
      else out) = out := by
    cases onErr <;> rfl
  rw [hifout]
  have hzmap := zOfGroup_eq_map none refs (l1 ++ p :: l2) hres
  rw [hzmap]
  set hfun := fun q => ((resolveOk none refs q).getD (RVal.bytes []), q) with hhfun
  -- the inline pass leaves p untouched
  have hinline : ∀ e ∈ inlineEntries ((l1 ++ p :: l2).map hfun), e.1 ≠ p := by
    intro e he hc2
    obtain ⟨e0, he0, h2, b, hb⟩ := inlineEntries_key_mem _ _ he
    obtain ⟨q, hq, he0q⟩ := List.mem_map.mp he0
    have hqp : q = p := by
      rw [← he0q] at h2
      simp only [hhfun] at h2
      exact h2.symm ▸ (hc2 ▸ rfl)
    rw [← he0q, hqp] at hb
    simp only [hhfun] at hb
    rw [hr] at hb
    cases hb
  -- membership of the whole-file triple in the merger input
  have hw : ((some u : U), (none : Option Int), (none : Option Int))
      ∈ mergerInputOf ((l1 ++ p :: l2).map hfun) := by
    unfold mergerInputOf
    refine List.mem_append_left _ ?_
    refine List.mem_filterMap.mpr ⟨hfun p0, List.mem_map_of_mem hfun hp0, ?_⟩
    simp only [hhfun]
    rw [hr0]
    rfl
  have hl2 : ∀ e ∈ l2.map hfun, e.2 ≠ p := by
    intro e he hc2
    obtain ⟨q, hq, heq⟩ := List.mem_map.mp he
    rw [← heq] at hc2
    simp only [hhfun] at hc2
    exact hpl2 (hc2 ▸ hq)
  have hl1 : ∀ e ∈ l1.map hfun, e.2 ≠ p := by
    intro e he hc2
    obtain ⟨q, hq, heq⟩ := List.mem_map.mp he
    rw [← heq] at hc2
    simp only [hhfun] at hc2
    exact hpl1 (hc2 ▸ hq)
  have hfp : hfun p = (RVal.range (some u) (some o) (some (o + sz)), p) := by
    simp only [hhfun]
    rw [hr]
    rfl
  set O := (inlineEntries ((l1 ++ p :: l2).map hfun)).foldl
      (fun o e => dictSet o e.1 (OutV.bytes e.2)) out with hO
  set M3 := (merge_offset_ranges mg mb (mergerInputOf ((l1 ++ p :: l2).map hfun))).map
      (fun t => (t, fetchRange content t.1 t.2.1 t.2.2)) with hM3
  have hOp : dictLookup O p = none := by
    rw [hO, lookup_foldl_inline _ _ _ hinline]
    exact hout
  have hM3fm : M3.filterMap
      (fun me => unbundleVal (some u) (some o) (some (o + sz)) me.1 me.2)
      = [OutV.bytes (pySlice cb (some o) (some (o + sz)))] := by
    rw [hM3]
    exact merged_unbundle_whole mg mb content _ _ _ _ _ hw hc
  -- split the unbundle fold at the entry of p
  rw [List.map_append, List.map_cons, List.foldl_append, List.foldl_cons, hfp]
  rw [lookup_foldl_unbundle _ _ _ _ hl2]
  have hX : dictLookup ((l1.map hfun).foldl (unbundleEntry M3) O) p = none := by
    rw [lookup_foldl_unbundle _ _ _ _ hl1]
    exact hOp
  rw [unbundleEntry_fresh _ _ _ _ _ _ hX]
  rw [lookup_foldl_lastWins]
  rw [hM3fm]
  rfl



theorem except_bind_ok {ε α β : Type} (a : α) (f : α → Except ε β) :
    (Except.ok a >>= f) = f a := rfl

theorem except_bind_error {ε α β : Type} (e : ε) (f : α → Except ε β) :
    ((Except.error e : Except ε α) >>= f) = .error e := rfl

theorem groupStep_ok_body (mg mb : Int) (content : U → Except Unit Bytes)
    (target : Option String) (refs : List (String × PyVal)) (onErr : OnErr)
    (out : Out) (gp : List String) (o1 : Out)
    (hs : groupStep mg mb content target refs onErr out gp = .ok o1) :
    o1 = groupStepBody mg mb content target refs onErr out gp := by
  unfold groupStep at hs
  by_cases hcnd : (onErr = OnErr.raise ∧ ¬ (resolveFails target refs gp).isEmpty)
  · rw [if_pos hcnd] at hs; cases hs
  · rw [if_neg hcnd] at hs; exact (Except.ok.inj hs).symm

theorem wrapAux (refs : List (String × PyVal)) (onErr : OnErr)
    (l : List (String × OutV)) (acc acc' : Out) (p : String) (b : Bytes)
    (hmem : ∀ kv ∈ l, kv.1 = p → kv.2 = OutV.bytes b)
    (hacc : dictLookup acc p = some (.bytes b))
    (hfold : l.foldlM (fun acc kv =>
        (match kv.2 with
         | OutV.exc _ =>
             if (dictLookup refs kv.1).isSome then
               match onErr with
               | OnErr.raise => Except.error ()
               | OnErr.omit => Except.ok acc
               | OnErr.ret => Except.ok (dictSet acc kv.1 (OutV.exc ExcV.rnr))
             else Except.ok acc
         | OutV.bytes _ => Except.ok acc : Except Unit Out)) acc = .ok acc') :
    dictLookup acc' p = some (.bytes b) := by
  induction l generalizing acc with
  | nil =>
      rw [List.foldlM_nil] at hfold
      cases hfold
      exact hacc
  | cons kv rest ih =>
      rw [List.foldlM_cons] at hfold
      have hmem2 : ∀ kv2 ∈ rest, kv2.1 = p → kv2.2 = OutV.bytes b :=
        fun kv2 h2 => hmem kv2 (List.mem_cons_of_mem _ h2)
      rcases kv with ⟨k0, v0⟩
      cases v0 with
      | bytes b2 =>
          rw [except_bind_ok] at hfold
          exact ih _ hmem2 hacc hfold
      | exc ex =>
          dsimp only at hfold
          by_cases hl : (dictLookup refs k0).isSome
          · rw [if_pos hl] at hfold
            cases onErr with
            | raise =>
                rw [except_bind_error] at hfold
                cases hfold
            | ret =>
                dsimp only at hfold
                rw [except_bind_ok] at hfold
                have hkp : k0 ≠ p := by
                  intro hc
                  have h3 := hmem (k0, OutV.exc ex) (List.mem_cons_self _ _) hc
                  cases h3
                refine ih _ hmem2 ?_ hfold
                rw [dictLookup_set_ne _ _ _ _ (Ne.symm hkp)]
                exact hacc
            | _ =>
                dsimp only at hfold
                rw [except_bind_ok] at hfold
                exact ih _ hmem2 hacc hfold
          · rw [if_neg hl, except_bind_ok] at hfold
            exact ih _ hmem2 hacc hfold

theorem wrapLoop_lookup_bytes (refs : List (String × PyVal)) (onErr : OnErr)
    (out out' : Out) (p : String) (b : Bytes)
    (hn : (out.map Prod.fst).Nodup)
    (h : dictLookup out p = some (.bytes b))
    (hw : wrapLoop refs onErr out = .ok out') :
    dictLookup out' p = some (.bytes b) := by
  unfold wrapLoop at hw
  refine wrapAux refs onErr out out out' p b ?_ h hw
  intro kv hkv hkp
  have := dictLookup_of_mem_nodupKeys out kv.1 kv.2 hn (by cases kv; exact hkv)
  rw [hkp, h] at this
  exact (Option.some.inj this).symm



theorem catfold_lookup_outside (mg mb : Int) (content : U → Except Unit Bytes)
    (target : Option String) (refs : List (String × PyVal)) (onErr : OnErr)
    (gs : List (Option String × List String)) (o o' : Out) (p : String)
    (h : ∀ g ∈ gs, ¬ p ∈ g.2)
    (hf : gs.foldlM (fun acc g => groupStep mg mb content target refs onErr acc g.2) o
        = .ok o') :
    dictLookup o' p = dictLookup o p := by
  induction gs generalizing o with
  | nil =>
      rw [List.foldlM_nil] at hf
      cases hf
      rfl
  | cons g rest ih =>
      rw [List.foldlM_cons] at hf
      cases hs : groupStep mg mb content target refs onErr o g.2 with
      | error e =>
          rw [hs, except_bind_error] at hf
          cases hf
      | ok o1 =>
          rw [hs, except_bind_ok] at hf
          rw [ih _ (fun g2 hg2 => h g2 (List.mem_cons_of_mem _ hg2)) hf]
          rw [groupStep_ok_body _ _ _ _ _ _ _ _ _ hs]
          exact groupStepBody_lookup_ne _ _ _ _ _ _ _ _ _ (h g (List.mem_cons_self _ _))

theorem catfold_nodupKeys (mg mb : Int) (content : U → Except Unit Bytes)
    (target : Option String) (refs : List (String × PyVal)) (onErr : OnErr)
    (gs : List (Option String × List String)) (o o' : Out)
    (h : (o.map Prod.fst).Nodup)
    (hf : gs.foldlM (fun acc g => groupStep mg mb content target refs onErr acc g.2) o
        = .ok o') :
    (o'.map Prod.fst).Nodup := by
  induction gs generalizing o with
  | nil =>
      rw [List.foldlM_nil] at hf
      cases hf
      exact h
  | cons g rest ih =>
      rw [List.foldlM_cons] at hf
      cases hs : groupStep mg mb content target refs onErr o g.2 with
      | error e =>
          rw [hs, except_bind_error] at hf
          cases hf
      | ok o1 =>
          rw [hs, except_bind_ok] at hf
          refine ih _ ?_ hf
          rw [groupStep_ok_body _ _ _ _ _ _ _ _ _ hs]
          exact groupStepBody_nodupKeys _ _ _ _ _ _ _ _ h

theorem resolveOk_of_arr1 (refs : List (String × PyVal)) (q : String) (uu : Option String)
    (h : dictLookup refs q = some (.arr1 uu)) :
    resolveOk none refs q = some (.range uu none none) := by
  unfold resolveOk
  rw [cat_common_eq, h]
  cases uu <;> rfl

theorem resolveOk_of_arr3 (refs : List (String × PyVal)) (q : String) (uu : Option String)
    (o sz : Int) (h : dictLookup refs q = some (.arr3 uu o sz)) :
    resolveOk none refs q = some (.range uu (some o) (some (o + sz))) := by
  unfold resolveOk
  rw [cat_common_eq, h]
  cases uu <;> rfl



/-- C5. In one bulk `cat` batch in which every requested path resolves, if
some path resolves to a whole-file reference on url u, then no merger input
of any protocol group contains a ranged triple on u (the whole-file triple
subsumes them), and every path whose reference is the slice (u, o, sz)
receives bytes[o : o + sz] of the full fetched object in the returned
mapping. The merger is the spec-modelled `merge_offset_ranges`; the default
target is None so resolved urls coincide with reference urls. -/
theorem c5_whole_file_subsumes_slices
    (mg mb : Int) (content : U → Except Unit Bytes)
    (refs : List (String × PyVal)) (onErr : OnErr) (paths : List String)
    (out : Out) (p0 p u : String) (o sz : Int) (cb : Bytes)
    (hnd : paths.Nodup)
    (hres : ∀ q ∈ paths, (resolveOk none refs q).isSome)
    (hp0 : p0 ∈ paths)
    (hr0 : dictLookup refs p0 = some (.arr1 (some u)))
    (hp : p ∈ paths)
    (hr : dictLookup refs p = some (.arr3 (some u) o sz))
    (hc : content (some u) = .ok cb)
    (hok : cat mg mb content none refs onErr paths = .ok out) :
    (∀ mi ∈ catMergerInputs none refs paths, ∀ t ∈ mi,
        t.1 = some u → t.2.1 = none ∧ t.2.2 = none)
    ∧ dictLookup out p = some (.bytes (pySlice cb (some o) (some (o + sz)))) := by
  have hro0 := resolveOk_of_arr1 refs p0 _ hr0
  have hro := resolveOk_of_arr3 refs p _ o sz hr
  have hpp : prot_in_references refs p = (some u : Option String).bind protoOf :=
    prot_of_arr3 refs p _ o sz hr
  have hpp0 : prot_in_references refs p0 = (some u : Option String).bind protoOf :=
    prot_of_arr1 refs p0 _ hr0
  constructor
  · intro mi hmi t ht htu
    unfold catMergerInputs at hmi
    obtain ⟨g, hg, hgeq⟩ := List.mem_map.mp hmi
    subst hgeq
    unfold protocol_groups at hg
    obtain ⟨k, hk, hgk⟩ := List.mem_map.mp hg
    have hg2 : g.2 = paths.filter (fun q => prot_in_references refs q = k) := by
      rw [← hgk]
    rw [hg2] at ht
    have hresg : ∀ q ∈ paths.filter (fun q => prot_in_references refs q = k),
        (resolveOk none refs q).isSome :=
      fun q hq => hres q (List.mem_filter.mp hq).1
    unfold mergerInputOf at ht
    rcases List.mem_append.mp ht with ht1 | ht2
    · obtain ⟨e0, he0, hsome⟩ := List.mem_filterMap.mp ht1
      cases hre : e0.1 with
      | bytes b => rw [hre] at hsome; cases hsome
      | range u' s' e' =>
          rw [hre] at hsome
          cases s' with
          | some s0 => cases hsome
          | none =>
              cases hsome
              have he1 : e0.1 ∈ ((paths.filter (fun q => prot_in_references refs q = k)).filterMap
                  (resolveOk none refs)) := (List.of_mem_zip he0).1
              obtain ⟨q, hq, hq2⟩ := List.mem_filterMap.mp he1
              rw [hre] at hq2
              exact ⟨rfl, (resolveOk_start_none refs q u' e' hq2).1⟩
    · obtain ⟨e0, he0, hsome⟩ := List.mem_filterMap.mp ht2
      cases hre : e0.1 with
      | bytes b => rw [hre] at hsome; cases hsome
      | range u' s' e' =>
          rw [hre] at hsome
          cases s' with
          | none => cases hsome
          | some s0 =>
              dsimp only at hsome
              by_cases hwm : u' ∈ wholeFilesOf
                  (zOfGroup none refs (paths.filter (fun q => prot_in_references refs q = k)))
              · rw [if_pos hwm] at hsome
                cases hsome
              · rw [if_neg hwm] at hsome
                cases hsome
                have htu2 : u' = some u := htu
                subst htu2
                have he1 : e0.1 ∈ ((paths.filter (fun q => prot_in_references refs q = k)).filterMap
                    (resolveOk none refs)) := (List.of_mem_zip he0).1
                obtain ⟨q, hq, hq2⟩ := List.mem_filterMap.mp he1
                rw [hre] at hq2
                obtain ⟨o2, sz2, hq3, _, _⟩ := resolveOk_start_some refs q _ s0 e' hq2
                have hkq : prot_in_references refs q = k := by
                  have h4 := (List.mem_filter.mp hq).2
                  simpa using h4
                have hkq2 : prot_in_references refs q = (some u : Option String).bind protoOf :=
                  prot_of_arr3 refs q _ o2 sz2 hq3
                have hp0g : p0 ∈ paths.filter (fun q => prot_in_references refs q = k) := by
                  refine List.mem_filter.mpr ⟨hp0, ?_⟩
                  have h5 : prot_in_references refs p0 = k := by
                    rw [hpp0, ← hkq2, hkq]
                  simp [h5]
                refine absurd ?_ hwm
                rw [zOfGroup_eq_map none refs _ hresg]
                refine List.mem_filterMap.mpr
                  ⟨((resolveOk none refs p0).getD (RVal.bytes []), p0),
                    List.mem_map_of_mem _ hp0g, ?_⟩
                rw [hro0]
                rfl
  · unfold cat at hok
    dsimp only at hok
    cases hmid : (protocol_groups refs paths).foldlM
        (fun o g => groupStep mg mb content none refs onErr o g.2) [] with
    | error e =>
        rw [hmid, except_bind_error] at hok
        cases hok
    | ok mid =>
        rw [hmid, except_bind_ok] at hok
        have hkpmem : prot_in_references refs p ∈ (paths.map (prot_in_references refs)).dedup := by
          rw [List.mem_dedup]
          exact List.mem_map_of_mem _ hp
        obtain ⟨K1, K2, hKdec⟩ := List.append_of_mem hkpmem
        have hknd : ((paths.map (prot_in_references refs)).dedup).Nodup := List.nodup_dedup _
        rw [hKdec] at hknd
        rw [List.nodup_append] at hknd
        have hkpK1 : ¬ prot_in_references refs p ∈ K1 := by
          intro hc2
          exact hknd.2.2 hc2 (List.mem_cons_self _ _)
        have hkpK2 : ¬ prot_in_references refs p ∈ K2 :=
          (List.nodup_cons.mp hknd.2.1).1
        have hgroups : protocol_groups refs paths
            = K1.map (fun k => (k, paths.filter (fun q => prot_in_references refs q = k)))
              ++ (prot_in_references refs p,
                  paths.filter (fun q => prot_in_references refs q = prot_in_references refs p))
                :: K2.map (fun k => (k, paths.filter (fun q => prot_in_references refs q = k))) := by
          unfold protocol_groups
          rw [hKdec, List.map_append, List.map_cons]
        rw [hgroups, List.foldlM_append] at hmid
        cases h1 : (K1.map (fun k =>
            (k, paths.filter (fun q => prot_in_references refs q = k)))).foldlM
            (fun o g => groupStep mg mb content none refs onErr o g.2) [] with
        | error e =>
            rw [h1, except_bind_error] at hmid
            cases hmid
        | ok o1 =>
            rw [h1, except_bind_ok, List.foldlM_cons] at hmid
            cases h2 : groupStep mg mb content none refs onErr o1
                (paths.filter (fun q =>
                  prot_in_references refs q = prot_in_references refs p)) with
            | error e =>
                rw [h2, except_bind_error] at hmid
                cases hmid
            | ok o2 =>
                rw [h2, except_bind_ok] at hmid
                have houtK1 : ∀ g ∈ K1.map (fun k =>
                    (k, paths.filter (fun q => prot_in_references refs q = k))), ¬ p ∈ g.2 := by
                  intro g hg hpg
                  obtain ⟨k1, hk1, hk1e⟩ := List.mem_map.mp hg
                  rw [← hk1e] at hpg
                  have h6 := (List.mem_filter.mp hpg).2
                  have h7 : prot_in_references refs p = k1 := by simpa using h6
                  exact hkpK1 (h7 ▸ hk1)
                have ho1p : dictLookup o1 p = none := by
                  rw [catfold_lookup_outside _ _ _ _ _ _ _ _ _ _ houtK1 h1]
                  rfl
                have ho1n : (o1.map Prod.fst).Nodup :=
                  catfold_nodupKeys _ _ _ _ _ _ _ _ _ (by simp) h1
                have hbody := groupStep_ok_body _ _ _ _ _ _ _ _ _ h2
                have hpg : p ∈ paths.filter (fun q =>
                    prot_in_references refs q = prot_in_references refs p) :=
                  List.mem_filter.mpr ⟨hp, by simp⟩
                have hp0g : p0 ∈ paths.filter (fun q =>
                    prot_in_references refs q = prot_in_references refs p) := by
                  refine List.mem_filter.mpr ⟨hp0, ?_⟩
                  have h8 : prot_in_references refs p0 = prot_in_references refs p := by
                    rw [hpp0, hpp]
                  simp [h8]
                have ho2p : dictLookup o2 p
                    = some (.bytes (pySlice cb (some o) (some (o + sz)))) := by
                  rw [hbody]
                  exact groupStepBody_lookup_whole_slice mg mb content refs onErr o1 _
                    (hnd.filter _)
                    (fun q hq => hres q (List.mem_filter.mp hq).1)
                    p0 p u o sz cb hp0g hro0 hpg hro ho1p hc
                have ho2n : (o2.map Prod.fst).Nodup := by
                  rw [hbody]
                  exact groupStepBody_nodupKeys _ _ _ _ _ _ _ _ ho1n
                have houtK2 : ∀ g ∈ K2.map (fun k =>
                    (k, paths.filter (fun q => prot_in_references refs q = k))), ¬ p ∈ g.2 := by
                  intro g hg hpg2
                  obtain ⟨k1, hk1, hk1e⟩ := List.mem_map.mp hg
                  rw [← hk1e] at hpg2
                  have h6 := (List.mem_filter.mp hpg2).2
                  have h7 : prot_in_references refs p = k1 := by simpa using h6
                  exact hkpK2 (h7 ▸ hk1)
                have hmidp : dictLookup mid p
                    = some (.bytes (pySlice cb (some o) (some (o + sz)))) := by
                  rw [catfold_lookup_outside _ _ _ _ _ _ _ _ _ _ houtK2 hmid]
                  exact ho2p
                have hmidn : (mid.map Prod.fst).Nodup :=
                  catfold_nodupKeys _ _ _ _ _ _ _ _ _ ho2n hmid
                exact wrapLoop_lookup_bytes refs onErr mid out p _ hmidn hmidp hok



/-- C5 witness: paths "a" (whole file on "u") and "b" (bytes [2, 5) of "u")
with "u" holding bytes 0..9. -/
theorem c5_whole_file_subsumes_slices_witness :
    (∀ mi ∈ catMergerInputs none refs5 ["a", "b"], ∀ t ∈ mi,
        t.1 = some "u" → t.2.1 = none ∧ t.2.2 = none)
    ∧ dictLookup [("a", OutV.bytes [0, 1, 2, 3, 4, 5, 6, 7, 8, 9]), ("b", OutV.bytes [2, 3, 4])] "b"
        = some (.bytes (pySlice [0, 1, 2, 3, 4, 5, 6, 7, 8, 9] (some 2) (some (2 + 3)))) :=
  c5_whole_file_subsumes_slices 0 1000000 content5 refs5 .raise ["a", "b"]
    [("a", OutV.bytes [0, 1, 2, 3, 4, 5, 6, 7, 8, 9]), ("b", OutV.bytes [2, 3, 4])]
    "a" "b" "u" 2 3 [0, 1, 2, 3, 4, 5, 6, 7, 8, 9]
    (by decide) (by decide) (by decide) (by decide) (by decide) (by decide) (by decide) (by rfl)

end FsspecRef
